import Mathlib

/-!
Verification development for the daily-briefing tool. The briefing composer,
tier calibration, concurrent result routing, delivery bookkeeping and the
transcript truncation of the repository are shallowly embedded as executable
Lean functions, and the specification claims about them are settled as
theorems below the definitions.
-/

/-- ProcessedContent row as the composer sees it: content id, joined source
id, tier string, backlog flag and delivered flag (src/storage/models.py). -/
structure PC where
  content_id : String
  source_id : String
  tier : String
  is_backlog : Bool
  delivered : Bool := false
deriving DecidableEq

/-- Numeric tier priority from ProcessedContent.tier_priority in models.py:
deep_dive 1, worth_a_look 2, summary_sufficient 3, anything else 99. -/
def PC.tier_priority (p : PC) : Nat :=
  if p.tier = "deep_dive" then 1
  else if p.tier = "worth_a_look" then 2
  else if p.tier = "summary_sufficient" then 3
  else 99

/-- Insert an element into a list sorted by key, after all elements of
strictly smaller key and before the first element of greater or equal key.
Used from the left over the input list this realises a stable sort. -/
def insertKey (key : α → Int) (x : α) : List α → List α
  | [] => [x]
  | y :: ys => if key y < key x then y :: insertKey key x ys else x :: y :: ys

/-- Stable sort by an integer key, modelling the stable list sort of the host
language (used with the tier priority, negated word count, negated queue
length as keys). -/
def sortKey (key : α → Int) : List α → List α
  | [] => []
  | x :: xs => insertKey key x (sortKey key xs)

/-- Fuelled helper for the grouping below; the fuel makes the recursion on a
shrinking filtered list structural, so the function reduces by evaluation. -/
def groupKeyAux (key : α → String) : Nat → List α → List (String × List α)
  | _, [] => []
  | 0, _ :: _ => []
  | fuel + 1, x :: xs =>
    (key x, x :: xs.filter (fun y => key y = key x)) ::
      groupKeyAux key fuel (xs.filter (fun y => ¬ key y = key x))

/-- Group a list by a string key, groups in order of first occurrence of each
key and the original relative order kept inside each group: the
insertion-ordered dict grouping used by the composer. -/
def groupKey (key : α → String) (l : List α) : List (String × List α) :=
  groupKeyAux key l.length l

/-- Per-source keep rule of BriefingComposer._enforce_source_diversity: the
loop keeps the items at index 0 and 1 unconditionally, keeps the item at
index 2 only when its tier is deep_dive, and drops all later items. -/
def keepDiverse : List PC → List PC
  | [] => []
  | [a] => [a]
  | [a, b] => [a, b]
  | a :: b :: c :: _ => if c.tier = "deep_dive" then [a, b, c] else [a, b]

/-- BriefingComposer._enforce_source_diversity: group by source id, sort each
group stably by tier priority, apply the per-source keep rule, and
concatenate the kept groups in first-occurrence order. -/
def enforce_source_diversity (items : List PC) : List PC :=
  ((groupKey (fun i => i.source_id) items).map
    (fun g => keepDiverse (sortKey (fun i => (i.tier_priority : Int)) g.2))).flatten

/-- Tier demotion applied by _cap_deep_dives to the items beyond the ceiling. -/
def demoteWAL (p : PC) : PC := { p with tier := "worth_a_look" }

/-- BriefingComposer._cap_deep_dives: when more than MAX_DEEP_DIVES = 3 items
are deep_dive, keep the 3 of highest word count (stable descending sort) and
demote the rest to worth_a_look. Also returns, in order, the
update_processed_tier writes the step issues to the store. -/
def cap_deep_dives (wc : String → Nat) (items : List PC) :
    List PC × List (String × String) :=
  let deep := items.filter (fun i => i.tier = "deep_dive")
  let rest := items.filter (fun i => ¬ i.tier = "deep_dive")
  if deep.length ≤ 3 then (items, [])
  else
    let sorted := sortKey (fun i => -((wc i.content_id : Int))) deep
    ((sorted.take 3) ++ rest ++ (sorted.drop 3).map demoteWAL,
      (sorted.drop 3).map (fun i => (i.content_id, "worth_a_look")))

/-- BriefingComposer._prioritize_and_cap: stable sort by tier priority, then
truncate to the cap. -/
def prioritize_and_cap (items : List PC) (cap : Nat) : List PC :=
  (sortKey (fun i => (i.tier_priority : Int)) items).take cap

/-- One pass of the round-robin interleaving loop of _order_for_display: emit
the head of every nonempty queue in order and keep the nonempty tails. -/
def rrStep (qs : List (List α)) : List α × List (List α) :=
  (qs.filterMap List.head?, (qs.map List.tail).filter (fun t => ¬ t.isEmpty))

/-- Fuelled round-robin loop: while some queue is nonempty, pop one item from
each queue in order, then continue with the surviving queues. -/
def rrLoop : Nat → List (List α) → List α
  | 0, _ => []
  | fuel + 1, qs =>
    if qs.any (fun q => ¬ q.isEmpty) then
      (rrStep qs).1 ++ rrLoop fuel (rrStep qs).2
    else []

/-- Total number of queued elements, used as the fuel bound of the loop. -/
def totalLen (qs : List (List α)) : Nat := (qs.map List.length).sum

/-- Round-robin interleave of the source queues, with enough fuel to drain. -/
def roundRobin (qs : List (List α)) : List α := rrLoop (totalLen qs) qs

/-- Per-tier block of BriefingComposer._order_for_display: filter the items
of the tier, sort fresh before backlog (stable), group by source in
first-occurrence order, order the source queues by decreasing size (stable),
and round-robin interleave them. -/
def orderTier (items : List PC) (tier : String) : List PC :=
  let tierItems := items.filter (fun i => i.tier = tier)
  let tierItems := sortKey (fun i => if i.is_backlog then (1 : Int) else 0) tierItems
  let queues := (groupKey (fun i => i.source_id) tierItems).map (fun g => g.2)
  roundRobin (sortKey (fun q => -(q.length : Int)) queues)

/-- BriefingComposer._order_for_display: the three tier blocks concatenated
in tier order. -/
def order_for_display (items : List PC) : List PC :=
  orderTier items "deep_dive" ++ orderTier items "worth_a_look" ++
    orderTier items "summary_sufficient"

/-- Backlog allocation step function from BriefingComposer.compose. -/
def backlogTarget (freshCount : Nat) : Nat :=
  if freshCount ≤ 3 then 8
  else if freshCount ≤ 6 then 5
  else if freshCount ≤ 9 then 3
  else 2

/-- DailyBriefing record (src/storage/models.py); the creation timestamp is
modelled as a natural number. -/
structure DailyBriefing where
  id : String
  briefing_date : String
  created_at : Nat
  fresh_count : Nat
  backlog_count : Nat
  total_count : Nat
  item_ids : List String
  email_sent : Bool := false
deriving DecidableEq

/-- BacklogProgress counters (src/storage/models.py), timestamp dropped. -/
structure BacklogProgress where
  total_items : Nat
  delivered_items : Nat
deriving DecidableEq

/-- Content store as the composer sees it: saved briefings keyed by ISO date,
the results of the pool queries get_undelivered_fresh and
get_undelivered_backlog (the latter before its LIMIT is applied), the
processed_content rows, the single backlog_progress row, and the word counts
of the content_items table. -/
structure Store where
  briefings : List (String × DailyBriefing)
  freshPool : List PC
  backlogAll : List PC
  processed : List PC
  progress : Option BacklogProgress
  wordCount : String → Nat

/-- Database.get_briefing: lookup of the unique briefing row of a date. -/
def Store.get_briefing (s : Store) (d : String) : Option DailyBriefing :=
  (s.briefings.find? (fun b => b.1 = d)).map (fun b => b.2)

/-- Steps 4 to 7 of BriefingComposer.compose on the combined pool: source
diversity, deep-dive ceiling, global cap at MAX_ITEMS = 18, display order.
Also returns the tier writes issued by the ceiling step. -/
def composeItems (wc : String → Nat) (freshPool backlogPool : List PC) :
    List PC × List (String × String) :=
  let all1 := freshPool ++ backlogPool
  let all2 := enforce_source_diversity all1
  let capped := cap_deep_dives wc all2
  let all3 := if 18 < capped.1.length then prioritize_and_cap capped.1 18 else capped.1
  (order_for_display all3, capped.2)

/-- Pool selection of compose: the fresh query result, and the backlog query
truncated to the target derived from the fresh count. -/
def Store.composePools (s : Store) : List PC × List PC :=
  (s.freshPool, s.backlogAll.take (backlogTarget s.freshPool.length))

/-- Final ordered selection of a fresh composition on the given store. -/
def Store.composeOrdered (s : Store) : List PC :=
  (composeItems s.wordCount s.composePools.1 s.composePools.2).1

/-- Tier writes issued during a fresh composition on the given store. -/
def Store.composeWrites (s : Store) : List (String × String) :=
  (composeItems s.wordCount s.composePools.1 s.composePools.2).2

/-- Database.update_processed_tier: set the tier of the row with the given
content id. -/
def update_processed_tier (rows : List PC) (id tier : String) : List PC :=
  rows.map (fun p => if p.content_id = id then { p with tier := tier } else p)

/-- Apply a list of update_processed_tier writes to the store in order. -/
def Store.applyTierWrites (s : Store) (ws : List (String × String)) : Store :=
  { s with processed := ws.foldl (fun rows w => update_processed_tier rows w.1 w.2) s.processed }

/-- BriefingComposer.compose: return the already saved briefing of the date
unchanged when one exists, otherwise select, diversify, cap and order the
pools and build the briefing record; the demotions of the ceiling step are
persisted to the store. The sha256-derived briefing id is abstracted as the
function mkId applied to the date, and the wall clock as the argument now. -/
def compose (mkId : String → String) (now : Nat) (s : Store) (d : String) :
    DailyBriefing × Store :=
  match s.get_briefing d with
  | some existing => (existing, s)
  | none =>
    let ordered := s.composeOrdered
    let briefing : DailyBriefing :=
      { id := mkId d
        briefing_date := d
        created_at := now
        fresh_count := (ordered.filter (fun i => ¬ i.is_backlog)).length
        backlog_count := (ordered.filter (fun i => i.is_backlog)).length
        total_count := ordered.length
        item_ids := ordered.map (fun i => i.content_id)
        email_sent := false }
    (briefing, s.applyTierWrites s.composeWrites)

/-- Database.mark_delivered: set the delivered flag of the listed rows. -/
def mark_delivered (rows : List PC) (ids : List String) : List PC :=
  rows.map (fun p => if p.content_id ∈ ids then { p with delivered := true } else p)

/-- Database.save_briefing: INSERT OR REPLACE keyed by the unique date. -/
def save_briefing (bs : List (String × DailyBriefing)) (b : DailyBriefing) :
    List (String × DailyBriefing) :=
  if bs.any (fun e => e.1 = b.briefing_date) then
    bs.map (fun e => if e.1 = b.briefing_date then (b.briefing_date, b) else e)
  else bs ++ [(b.briefing_date, b)]

/-- Database.update_backlog_progress: add the increment to the delivered
counter of the single progress row. -/
def Store.update_backlog_progress (s : Store) (inc : Nat) : Store :=
  let addInc : BacklogProgress → BacklogProgress :=
    fun bp => { bp with delivered_items := bp.delivered_items + inc }
  { s with progress := s.progress.map addInc }

/-- BriefingComposer.save_and_deliver: save the briefing, mark every included
item delivered, and when the briefing holds backlog items advance the backlog
progress counter by exactly the backlog count. -/
def save_and_deliver (s : Store) (b : DailyBriefing) : Store :=
  let s1 := { s with briefings := save_briefing s.briefings b }
  let s2 := { s1 with processed := mark_delivered s1.processed b.item_ids }
  if 0 < b.backlog_count then s2.update_backlog_progress b.backlog_count else s2

/-- Round ten times a rational half to even: roundTenHE q is the host
function round applied to q at one decimal place, scaled by ten. Written
over the numerator and denominator with integer arithmetic so that the
kernel can evaluate it; f is the floor of 10 q and r the numerator of the
remaining fractional part over the denominator d. -/
def roundTenHE (q : ℚ) : ℤ :=
  let n : ℤ := 10 * q.num
  let d : ℤ := (q.den : ℤ)
  let f : ℤ := (Rat.divInt n d).floor
  let r : ℤ := n - f * d
  if 2 * r < d then f
  else if d < 2 * r then f + 1
  else if f % 2 = 0 then f else f + 1

/-- Round a rational to one decimal place, half to even, the behaviour of
the host round(x, 1). -/
def round1 (q : ℚ) : ℚ := Rat.divInt (roundTenHE q) 10

/-- BacklogProgress.percent_complete: 100 when the total is zero, otherwise
the delivered share in percent rounded to one decimal place. Host floating
point arithmetic is modelled by exact rationals, with the quotient
delivered_items / total_items times 100 formed as one exact division. -/
def BacklogProgress.percent_complete (bp : BacklogProgress) : ℚ :=
  if bp.total_items = 0 then 100
  else round1 (Rat.divInt (bp.delivered_items * 100) bp.total_items)

/-- Sources known for high-quality deep content (src/processors/summarizer.py). -/
def DEEP_SOURCES : List String := ["dwarkesh-patel", "lennys-podcast", "stratechery"]

/-- Calibration threshold: minimum words for source and signal based deep
dive promotion. -/
def DEEP_DIVE_MIN_WORDS : Nat := 12000

/-- Calibration threshold: very long content is a deep dive regardless of
source. -/
def DEEP_DIVE_LONG_FORM : Nat := 18000

/-- Calibration threshold: many insights mean dense content. -/
def DEEP_DIVE_MIN_INSIGHTS : Nat := 5

/-- Calibration threshold: short content has limited depth. -/
def SUMMARY_SUFFICIENT_MAX_WORDS : Nat := 1500

/-- Inputs of Summarizer._calibrate_tier: the signals of the item and of the
parsed LLM answer that the chain reads. -/
structure CalibInput where
  word_count : Nat
  source_id : String
  llm_tier : String
  content_category : String
  key_insights : List String
  freshness : String

/-- Summarizer._calibrate_tier: the if/elif chain in source order. The pair
returned is the calibrated tier together with the zero-based index of the
rule that fired, none when the chain falls through and the LLM tier is
kept; the human-readable rationale suffix of the source is abstracted into
that index. -/
def calibrate_tier (c : CalibInput) : String × Option Nat :=
  if DEEP_DIVE_LONG_FORM ≤ c.word_count ∧ c.llm_tier ≠ "deep_dive" then
    ("deep_dive", some 0)
  else if DEEP_DIVE_MIN_WORDS ≤ c.word_count ∧ c.source_id ∈ DEEP_SOURCES ∧
      c.llm_tier ≠ "deep_dive" then
    ("deep_dive", some 1)
  else if DEEP_DIVE_MIN_WORDS ≤ c.word_count ∧ c.content_category = "interview" ∧
      c.llm_tier ≠ "deep_dive" then
    ("deep_dive", some 2)
  else if DEEP_DIVE_MIN_WORDS ≤ c.word_count ∧
      DEEP_DIVE_MIN_INSIGHTS ≤ c.key_insights.length ∧ c.llm_tier ≠ "deep_dive" then
    ("deep_dive", some 3)
  else if c.word_count ≤ SUMMARY_SUFFICIENT_MAX_WORDS ∧
      c.llm_tier ≠ "summary_sufficient" then
    ("summary_sufficient", some 4)
  else if c.freshness = "stale" ∧ c.llm_tier = "deep_dive" then
    ("worth_a_look", some 5)
  else (c.llm_tier, none)

/-- Guard of the k-th calibration rule, read off the source conditions, as a
pure boolean predicate of the inputs. -/
def calibGuard (c : CalibInput) : Nat → Bool
  | 0 => decide (DEEP_DIVE_LONG_FORM ≤ c.word_count) && !(c.llm_tier == "deep_dive")
  | 1 => decide (DEEP_DIVE_MIN_WORDS ≤ c.word_count) &&
      decide (c.source_id ∈ DEEP_SOURCES) && !(c.llm_tier == "deep_dive")
  | 2 => decide (DEEP_DIVE_MIN_WORDS ≤ c.word_count) &&
      (c.content_category == "interview") && !(c.llm_tier == "deep_dive")
  | 3 => decide (DEEP_DIVE_MIN_WORDS ≤ c.word_count) &&
      decide (DEEP_DIVE_MIN_INSIGHTS ≤ c.key_insights.length) && !(c.llm_tier == "deep_dive")
  | 4 => decide (c.word_count ≤ SUMMARY_SUFFICIENT_MAX_WORDS) &&
      !(c.llm_tier == "summary_sufficient")
  | 5 => (c.freshness == "stale") && (c.llm_tier == "deep_dive")
  | _ => false

/-- Tier produced by the k-th calibration rule; out of range it keeps the
LLM tier, matching the fall-through default. -/
def calibResult (c : CalibInput) : Nat → String
  | 0 => "deep_dive"
  | 1 => "deep_dive"
  | 2 => "deep_dive"
  | 3 => "deep_dive"
  | 4 => "summary_sufficient"
  | 5 => "worth_a_look"
  | _ => c.llm_tier

/-- Truncation marker appended by every truncate_for_context. -/
def TRUNC_MARKER : List Char := "\n\n[Content truncated due to length]".toList

/-- estimate_tokens of both provider clients: character length divided by
four, rounded down. -/
def estimate_tokens (text : List Char) : Nat := text.length / 4

/-- Sentence boundary test: the two-character pattern period-space starts at
index i of the text. -/
def boundaryAt (s : List Char) (i : Nat) : Bool :=
  match s.drop i with
  | '.' :: ' ' :: _ => true
  | _ => false

/-- Python str.rfind of the pattern period-space: the greatest index where
the pattern starts, or -1 when the pattern does not occur. -/
def rfindDotSpace (s : List Char) : Int :=
  match ((List.range s.length).filter (fun i => boundaryAt s i)).getLast? with
  | some i => (i : Int)
  | none => -1

/-- GeminiClient.truncate_for_context: return the text unchanged when it
fits, otherwise cut it at the character budget max_tokens times four, move
the cut back to just after the last period-space boundary when that
boundary lies strictly beyond eighty percent of the budget, and append the
marker. The float comparison last_period greater than max_chars times 0.8
is modelled exactly: five last_period greater than four max_chars. -/
def truncate_for_context (text : List Char) (max_tokens : Nat) : List Char :=
  if estimate_tokens text ≤ max_tokens then text
  else
    let max_chars := max_tokens * 4
    let truncated := text.take max_chars
    let last_period := rfindDotSpace truncated
    let truncated :=
      if 4 * (max_chars : Int) < 5 * last_period then truncated.take (last_period.toNat + 1)
      else truncated
    truncated ++ TRUNC_MARKER

/-- AsyncGeminiCaller.truncate_for_context and the identical
AsyncOpenAICaller method (scripts/concurrent_process.py): the same cut
logic, but without the early return of the client class — these static
helpers are only invoked on overlong text. -/
def truncateAsync (text : List Char) (max_tokens : Nat) : List Char :=
  let max_chars := max_tokens * 4
  let truncated := text.take max_chars
  let last_period := rfindDotSpace truncated
  let truncated :=
    if 4 * (max_chars : Int) < 5 * last_period then truncated.take (last_period.toNat + 1)
    else truncated
  truncated ++ TRUNC_MARKER

/-- Message placed on the result queue by a worker: the item id together
with the parsed ProcessedContent on success or none on failure. Both the
normal path and the exception path of process_one enqueue exactly one such
tuple. -/
def process_one (item_id : String) (result : Option PC) : String × Option PC :=
  (item_id, result)

/-- Writer-side store state of the concurrent pipeline: the content_items
status column and the processed_content rows, both keyed by content id.
UPDATE and INSERT OR REPLACE by primary key are modelled as pointwise
function update. -/
structure ProcStore where
  status : String → String
  processedRows : String → Option PC

/-- Database.update_content_status as db_writer uses it: set the status of
the content row with the given id. -/
def setStatus (st : ProcStore) (id v : String) : ProcStore :=
  { st with status := fun x => if x = id then v else st.status x }

/-- Database.save_processed: INSERT OR REPLACE of the row keyed by the
content id of the processed record. -/
def saveProcessed (st : ProcStore) (p : PC) : ProcStore :=
  { st with processedRows :=
      fun x => if x = p.content_id then some p else st.processedRows x }

/-- One queue message handled by db_writer: a success saves the processed
row and marks the item processed, a failure marks it failed. -/
def dbWriteOne (st : ProcStore) (m : String × Option PC) : ProcStore :=
  match m.2 with
  | some p => setStatus (saveProcessed st p) m.1 "processed"
  | none => setStatus st m.1 "failed"

/-- db_writer: the single consumer task drains the queue in arrival order
and performs every store write itself. -/
def db_writer (st : ProcStore) (msgs : List (String × Option PC)) : ProcStore :=
  msgs.foldl dbWriteOne st

/-- Number of batch item ids whose stored status equals the given value. -/
def countStatus (st : ProcStore) (ids : List String) (v : String) : Nat :=
  (ids.filter (fun i => st.status i = v)).length

/-- All items of the list carry the given source id. -/
def allSameSource (src : String) (l : List PC) : Bool :=
  l.all (fun i => i.source_id = src)

/-- Display adjacency property stated by the specification: two adjacent
items never share a source id unless, from that point on, every remaining
item carries that same source. -/
def noAdjDupSource : List PC → Bool
  | [] => true
  | [_] => true
  | a :: b :: rest =>
    (if a.source_id = b.source_id then allSameSource a.source_id (b :: rest) else true)
      && noAdjDupSource (b :: rest)

/-- Source diversity property stated by the specification claim, in
order-free form: every source contributes at most three items, and at most
two of the items of any one source are not deep_dive (so any instance
beyond the second is deep_dive). -/
def sourceDiversityOK (l : List PC) : Bool :=
  l.all (fun i =>
    decide ((l.filter (fun j => j.source_id = i.source_id)).length ≤ 3) &&
    decide ((l.filter (fun j =>
      j.source_id = i.source_id ∧ ¬ j.tier = "deep_dive")).length ≤ 2))

/-- Store used to exhibit the failure of the claimed adjacency property:
one deep_dive and one worth_a_look item of source A and one worth_a_look
item of source B, all fresh, no saved briefing. -/
def cexStore6 : Store :=
  { briefings := []
    freshPool :=
      [⟨"a1", "A", "deep_dive", false, false⟩,
       ⟨"a2", "A", "worth_a_look", false, false⟩,
       ⟨"b1", "B", "worth_a_look", false, false⟩]
    backlogAll := []
    processed := []
    progress := none
    wordCount := fun _ => 0 }

/-- Store used to exhibit the failure of the claimed final-state source
diversity property: six deep_dive candidates, three of distinct sources
with high word counts and three of one source S with low word counts, so
the ceiling demotes all three S items after diversity allowed them. -/
def cexStore5 : Store :=
  { briefings := []
    freshPool :=
      [⟨"t1", "T1", "deep_dive", false, false⟩,
       ⟨"t2", "T2", "deep_dive", false, false⟩,
       ⟨"t3", "T3", "deep_dive", false, false⟩,
       ⟨"s1", "S", "deep_dive", false, false⟩,
       ⟨"s2", "S", "deep_dive", false, false⟩,
       ⟨"s3", "S", "deep_dive", false, false⟩]
    backlogAll := []
    processed := []
    progress := none
    wordCount := fun id => if id = "t1" ∨ id = "t2" ∨ id = "t3" then 100 else 10 }


/-- Sentence-boundary reading of the truncation claim: the cut text in front
of the appended marker ends with a period. -/
def endsAtSentenceBoundary (text : List Char) (mt : Nat) : Prop :=
  ((truncate_for_context text mt).take
    ((truncate_for_context text mt).length - TRUNC_MARKER.length)).getLast? =
      some ('.' : Char)

/-- Overlong text with no sentence boundary in the last fifth of the budget:
the code cuts it mid-sentence. -/
def cexText9 : List Char := "abcdefgh".toList

/-- Overlong text whose budget prefix ends in a late sentence boundary, used
to exercise the boundary branch of the truncation. -/
def wText9 : List Char := "abcdefghij. klmnop".toList

/-- Briefing fixture for the idempotence witness. -/
def w2Briefing : DailyBriefing :=
  { id := "b1"
    briefing_date := "2026-02-02"
    created_at := 5
    fresh_count := 1
    backlog_count := 0
    total_count := 1
    item_ids := ["x1"]
    email_sent := false }

/-- Store fixture holding an already saved briefing for 2026-02-02. -/
def w2Store : Store :=
  { briefings := [("2026-02-02", w2Briefing)]
    freshPool := [⟨"x1", "A", "deep_dive", false, false⟩]
    backlogAll := []
    processed := []
    progress := none
    wordCount := fun _ => 0 }

/-- Store fixture for the delivery witness: two processed rows and the
backlog progress at 0 of 100. -/
def w8Store : Store :=
  { briefings := []
    freshPool := []
    backlogAll := []
    processed :=
      [⟨"p1", "A", "deep_dive", true, false⟩,
       ⟨"p2", "B", "worth_a_look", true, false⟩]
    progress := some ⟨100, 0⟩
    wordCount := fun _ => 0 }

/-- Briefing fixture for the delivery witness: four backlog items counted. -/
def w8Briefing : DailyBriefing :=
  { id := "b8"
    briefing_date := "2026-03-03"
    created_at := 9
    fresh_count := 0
    backlog_count := 4
    total_count := 4
    item_ids := ["p1", "p2", "p3", "p4"]
    email_sent := false }

/-- Sample processed record for the single-writer witness. -/
def wPC1 : PC := ⟨"a", "S", "deep_dive", false, false⟩

/-- The deep_dive candidates surviving the diversity step, sorted by
descending word count (the sort key of the ceiling step). -/
def Store.deepCands (s : Store) : List PC :=
  sortKey (fun i => -((s.wordCount i.content_id : Int)))
    ((enforce_source_diversity (s.composePools.1 ++ s.composePools.2)).filter
      (fun i => i.tier = "deep_dive"))

/-! Generic lemmas about the stable sort. -/

theorem insertKey_perm (key : α → Int) (x : α) (l : List α) :
    List.Perm (insertKey key x l) (x :: l) := by
  induction l with
  | nil => simp [insertKey]
  | cons y ys ih =>
    simp only [insertKey]
    split
    · exact (ih.cons y).trans (List.Perm.swap x y ys)
    · exact List.Perm.refl _

theorem sortKey_perm (key : α → Int) (l : List α) :
    List.Perm (sortKey key l) l := by
  induction l with
  | nil => exact List.Perm.refl _
  | cons x xs ih => exact (insertKey_perm key x _).trans (ih.cons x)

theorem sortKey_length (key : α → Int) (l : List α) :
    (sortKey key l).length = l.length :=
  (sortKey_perm key l).length_eq

theorem mem_sortKey {key : α → Int} {x : α} {l : List α} :
    x ∈ sortKey key l ↔ x ∈ l :=
  (sortKey_perm key l).mem_iff

theorem insertKey_pairwise (key : α → Int) (x : α) {l : List α}
    (h : l.Pairwise (fun a b => key a ≤ key b)) :
    (insertKey key x l).Pairwise (fun a b => key a ≤ key b) := by
  induction l with
  | nil => simp [insertKey]
  | cons y ys ih =>
    rw [List.pairwise_cons] at h
    simp only [insertKey]
    split
    · next hlt =>
      refine List.pairwise_cons.mpr ⟨?_, ih h.2⟩
      intro b hb
      have hb2 := (insertKey_perm key x ys).mem_iff.mp hb
      rcases List.mem_cons.mp hb2 with rfl | hb3
      · exact le_of_lt hlt
      · exact h.1 b hb3
    · next hge =>
      have hxy : key x ≤ key y := le_of_not_lt hge
      refine List.pairwise_cons.mpr ⟨?_, List.pairwise_cons.mpr h⟩
      intro b hb
      rcases List.mem_cons.mp hb with rfl | hb
      · exact hxy
      · exact le_trans hxy (h.1 b hb)

theorem sortKey_sorted (key : α → Int) (l : List α) :
    (sortKey key l).Pairwise (fun a b => key a ≤ key b) := by
  induction l with
  | nil => simp [sortKey]
  | cons x xs ih => exact insertKey_pairwise key x ih

/-! Lemmas about the insertion-ordered grouping. -/

theorem filter_filter_of_imp {p q : α → Bool} (l : List α)
    (h : ∀ a, q a = true → p a = true) :
    (l.filter p).filter q = l.filter q := by
  induction l with
  | nil => rfl
  | cons x xs ih =>
    by_cases hq : q x = true
    · have hp := h x hq
      simp [List.filter_cons, hp, hq, ih]
    · by_cases hp : p x = true
      · simp [List.filter_cons, hp, hq, ih]
      · simp only [List.filter_cons, Bool.not_eq_true] at hp hq ⊢
        simp [hp, hq, ih]

theorem groupKeyAux_snd (key : α → String) (fuel : Nat) (l : List α)
    (hf : l.length ≤ fuel) :
    ∀ g ∈ groupKeyAux key fuel l,
      g.2 = l.filter (fun y => key y = g.1) ∧ (∃ y ∈ l, key y = g.1) := by
  induction fuel generalizing l with
  | zero =>
    cases l with
    | nil => intro g hg; simp [groupKeyAux] at hg
    | cons x xs => simp at hf
  | succ n ih =>
    cases l with
    | nil => intro g hg; simp [groupKeyAux] at hg
    | cons x xs =>
      intro g hg
      simp only [groupKeyAux, List.mem_cons] at hg
      rcases hg with rfl | hg
      · constructor
        · simp
        · exact ⟨x, List.mem_cons_self x xs, rfl⟩
      · have hlen : (xs.filter (fun y => ¬ key y = key x)).length ≤ n := by
          have := List.length_filter_le (fun y => ¬ key y = key x) xs
          simp only [List.length_cons, Nat.succ_le_succ_iff] at hf
          omega
        obtain ⟨h1, y, hy, hyk⟩ := ih _ hlen g hg
        have hyx : y ∈ xs ∧ ¬ key y = key x := by
          simpa using List.mem_filter.mp hy
        have hgx : ¬ g.1 = key x := fun hc => hyx.2 (hyk.trans hc)
        constructor
        · rw [h1, filter_filter_of_imp]
          · have hx : ¬ key x = g.1 := fun hc => hgx hc.symm
            simp [List.filter_cons, hx]
          · intro a ha
            simp only [decide_eq_true_eq] at ha ⊢
            exact fun hc => hgx (ha.symm.trans hc)
        · exact ⟨y, List.mem_cons_of_mem x hyx.1, hyk⟩

theorem groupKey_snd (key : α → String) (l : List α) :
    ∀ g ∈ groupKey key l,
      g.2 = l.filter (fun y => key y = g.1) ∧ (∃ y ∈ l, key y = g.1) :=
  groupKeyAux_snd key l.length l (le_refl _)

theorem groupKeyAux_keys (key : α → String) (fuel : Nat) (l : List α)
    (hf : l.length ≤ fuel) :
    (groupKeyAux key fuel l).Pairwise (fun g h => g.1 ≠ h.1) := by
  induction fuel generalizing l with
  | zero => cases l with
    | nil => simp [groupKeyAux]
    | cons x xs => simp at hf
  | succ n ih =>
    cases l with
    | nil => simp [groupKeyAux]
    | cons x xs =>
      have hlen : (xs.filter (fun y => ¬ key y = key x)).length ≤ n := by
        have := List.length_filter_le (fun y => ¬ key y = key x) xs
        simp only [List.length_cons, Nat.succ_le_succ_iff] at hf
        omega
      simp only [groupKeyAux]
      refine List.pairwise_cons.mpr ⟨?_, ih _ hlen⟩
      intro g hg
      obtain ⟨_, y, hy, hyk⟩ := groupKeyAux_snd key n _ hlen g hg
      have hyx : ¬ key y = key x := by
        have := List.mem_filter.mp hy
        simpa using this.2
      intro hc
      exact hyx (hyk ▸ hc ▸ rfl)

theorem groupKey_keys (key : α → String) (l : List α) :
    (groupKey key l).Pairwise (fun g h => g.1 ≠ h.1) :=
  groupKeyAux_keys key l.length l (le_refl _)

theorem groupKeyAux_nonempty (key : α → String) (fuel : Nat) (l : List α)
    (hf : l.length ≤ fuel) :
    ∀ g ∈ groupKeyAux key fuel l, g.2 ≠ [] := by
  induction fuel generalizing l with
  | zero => cases l with
    | nil => simp [groupKeyAux]
    | cons x xs => simp at hf
  | succ n ih =>
    cases l with
    | nil => simp [groupKeyAux]
    | cons x xs =>
      have hlen : (xs.filter (fun y => ¬ key y = key x)).length ≤ n := by
        have := List.length_filter_le (fun y => ¬ key y = key x) xs
        simp only [List.length_cons, Nat.succ_le_succ_iff] at hf
        omega
      intro g hg
      simp only [groupKeyAux, List.mem_cons] at hg
      rcases hg with rfl | hg
      · simp
      · exact ih _ hlen g hg

theorem groupKey_nonempty (key : α → String) (l : List α) :
    ∀ g ∈ groupKey key l, g.2 ≠ [] :=
  groupKeyAux_nonempty key l.length l (le_refl _)

theorem groupKeyAux_flatten_perm (key : α → String) (fuel : Nat) (l : List α)
    (hf : l.length ≤ fuel) :
    List.Perm ((groupKeyAux key fuel l).map (fun g => g.2)).flatten l := by
  induction fuel generalizing l with
  | zero => cases l with
    | nil => simp [groupKeyAux]
    | cons x xs => simp at hf
  | succ n ih =>
    cases l with
    | nil => simp [groupKeyAux]
    | cons x xs =>
      have hlen : (xs.filter (fun y => ¬ key y = key x)).length ≤ n := by
        have := List.length_filter_le (fun y => ¬ key y = key x) xs
        simp only [List.length_cons, Nat.succ_le_succ_iff] at hf
        omega
      simp only [groupKeyAux, List.map_cons, List.flatten_cons]
      refine List.Perm.cons x ?_
      have h1 := (ih _ hlen).append_left (xs.filter (fun y => key y = key x))
      refine h1.trans ?_
      have := List.filter_append_perm (fun y => key y = key x) xs
      refine List.Perm.trans ?_ this
      refine List.Perm.append_left _ ?_
      rw [List.filter_congr]
      intro a _
      simp [decide_not]

theorem groupKey_flatten_perm (key : α → String) (l : List α) :
    List.Perm ((groupKey key l).map (fun g => g.2)).flatten l :=
  groupKeyAux_flatten_perm key l.length l (le_refl _)

/-! Lemmas about the round-robin loop. -/

theorem totalLen_nil : totalLen ([] : List (List α)) = 0 := rfl

theorem totalLen_cons (q : List α) (rest : List (List α)) :
    totalLen (q :: rest) = q.length + totalLen rest := by
  simp [totalLen]

theorem all_nil_of_totalLen_zero {qs : List (List α)} (h : totalLen qs = 0) :
    ∀ q ∈ qs, q = [] := by
  induction qs with
  | nil => simp
  | cons q rest ih =>
    rw [totalLen_cons] at h
    intro r hr
    rcases List.mem_cons.mp hr with rfl | hr
    · exact List.length_eq_zero.mp (by omega)
    · exact ih (by omega) r hr

theorem flatten_eq_nil_of_all_nil {qs : List (List α)} (h : ∀ q ∈ qs, q = []) :
    qs.flatten = [] := by
  induction qs with
  | nil => rfl
  | cons q rest ih =>
    rw [List.flatten_cons, h q (List.mem_cons_self q rest),
      ih (fun r hr => h r (List.mem_cons_of_mem q hr))]
    rfl

theorem rrStep_cons_nil (rest : List (List α)) :
    rrStep (([] : List α) :: rest) = rrStep rest := by
  simp [rrStep]

theorem rrStep_cons_cons (x : α) (t : List α) (rest : List (List α)) :
    (rrStep ((x :: t) :: rest)).1 = x :: (rrStep rest).1 ∧
    (rrStep ((x :: t) :: rest)).2 =
      (if t.isEmpty then [] else [t]) ++ (rrStep rest).2 := by
  constructor
  · simp [rrStep, List.filterMap_cons]
  · cases t <;> simp [rrStep]

theorem totalLen_append (a b : List (List α)) :
    totalLen (a ++ b) = totalLen a + totalLen b := by
  simp [totalLen]

theorem rrStep_perm (qs : List (List α)) :
    List.Perm ((rrStep qs).1 ++ ((rrStep qs).2).flatten) qs.flatten := by
  induction qs with
  | nil => simp [rrStep]
  | cons q rest ih =>
    cases q with
    | nil =>
      rw [rrStep_cons_nil, List.flatten_cons]
      simpa using ih
    | cons x t =>
      obtain ⟨h1, h2⟩ := rrStep_cons_cons x t rest
      rw [h1, h2, List.flatten_append, List.flatten_cons, List.cons_append]
      refine List.Perm.cons x ?_
      cases t with
      | nil => simpa using ih
      | cons y u =>
        have hne : (if (y :: u).isEmpty then ([] : List (List α)) else [y :: u]) =
            [y :: u] := rfl
        rw [hne]
        have hfl : ([y :: u] : List (List α)).flatten = y :: u := by simp
        rw [hfl]
        exact (List.perm_append_comm_assoc _ _ _).trans (ih.append_left (y :: u))

theorem rrStep_fst_length_pos {qs : List (List α)}
    (h : qs.any (fun q => ¬ q.isEmpty) = true) :
    0 < ((rrStep qs).1).length := by
  simp only [List.any_eq_true] at h
  obtain ⟨q, hq, hne⟩ := h
  cases q with
  | nil => simp at hne
  | cons x t =>
    have hx : x ∈ (rrStep qs).1 :=
      List.mem_filterMap.mpr ⟨x :: t, hq, rfl⟩
    exact List.length_pos.mpr (List.ne_nil_of_mem hx)

theorem totalLen_rrStep (qs : List (List α)) :
    totalLen (rrStep qs).2 + ((rrStep qs).1).length = totalLen qs := by
  induction qs with
  | nil => simp [rrStep, totalLen]
  | cons q rest ih =>
    cases q with
    | nil =>
      rw [rrStep_cons_nil, totalLen_cons]
      simpa using ih
    | cons x t =>
      obtain ⟨h1, h2⟩ := rrStep_cons_cons x t rest
      rw [h1, h2, totalLen_cons, totalLen_append, List.length_cons]
      cases t with
      | nil =>
        simp only [List.isEmpty_nil, if_true, totalLen_nil, List.length_cons,
          List.length_nil]
        omega
      | cons y u =>
        have hne : (if (y :: u).isEmpty then ([] : List (List α)) else [y :: u]) =
            [y :: u] := rfl
        rw [hne, totalLen_cons, totalLen_nil, List.length_cons]
        simp only [List.length_cons]
        omega

theorem rrLoop_perm (fuel : Nat) (qs : List (List α)) (h : totalLen qs ≤ fuel) :
    List.Perm (rrLoop fuel qs) qs.flatten := by
  induction fuel generalizing qs with
  | zero =>
    have h0 : totalLen qs = 0 := Nat.le_zero.mp h
    rw [rrLoop, flatten_eq_nil_of_all_nil (all_nil_of_totalLen_zero h0)]
  | succ n ih =>
    by_cases hany : qs.any (fun q => ¬ q.isEmpty) = true
    · rw [rrLoop, if_pos hany]
      have hlen := totalLen_rrStep qs
      have hpos := rrStep_fst_length_pos hany
      have hf : totalLen (rrStep qs).2 ≤ n := by omega
      exact (List.Perm.append_left _ (ih _ hf)).trans (rrStep_perm qs)
    · rw [rrLoop, if_neg hany]
      have hall : ∀ q ∈ qs, q = [] := by
        intro q hq
        by_contra hne
        exact hany (List.any_eq_true.mpr ⟨q, hq, by simpa using hne⟩)
      exact (flatten_eq_nil_of_all_nil hall) ▸ List.Perm.refl _

theorem roundRobin_perm (qs : List (List α)) :
    List.Perm (roundRobin qs) qs.flatten :=
  rrLoop_perm _ qs (le_refl _)

theorem mem_rrLoop {fuel : Nat} {qs : List (List α)} {x : α}
    (h : x ∈ rrLoop fuel qs) : ∃ q ∈ qs, x ∈ q := by
  induction fuel generalizing qs with
  | zero => simp [rrLoop] at h
  | succ n ih =>
    rw [rrLoop] at h
    split at h
    · rcases List.mem_append.mp h with h | h
      · obtain ⟨q, hq, hh⟩ := List.mem_filterMap.mp h
        exact ⟨q, hq, List.mem_of_mem_head? hh⟩
      · obtain ⟨q2, hq2, hx⟩ := ih h
        obtain ⟨hq2m, _⟩ := List.mem_filter.mp hq2
        obtain ⟨q0, hq0, rfl⟩ := List.mem_map.mp hq2m
        exact ⟨q0, hq0, List.mem_of_mem_tail hx⟩
    · simp at h

/-! Adjacency property of the round-robin interleaving. -/

/-- Invariant of the source queues entering the round-robin loop: every
queue is nonempty, every queue holds items of a single source, and no two
queues share a source. -/
def QueuesOK (qs : List (List PC)) : Prop :=
  (∀ q ∈ qs, q ≠ []) ∧
  (∀ q ∈ qs, ∀ a ∈ q, ∀ b ∈ q, a.source_id = b.source_id) ∧
  qs.Pairwise (fun q r => ∀ a ∈ q, ∀ b ∈ r, a.source_id ≠ b.source_id)

theorem QueuesOK_of_cons {q : List PC} {rest : List (List PC)}
    (h : QueuesOK (q :: rest)) : QueuesOK rest :=
  ⟨fun r hr => h.1 r (List.mem_cons_of_mem q hr),
   fun r hr => h.2.1 r (List.mem_cons_of_mem q hr),
   (List.pairwise_cons.mp h.2.2).2⟩

theorem QueuesOK_next {qs : List (List PC)} (h : QueuesOK qs) :
    QueuesOK (rrStep qs).2 := by
  refine ⟨?_, ?_, ?_⟩
  · intro q hq
    have h2 := (List.mem_filter.mp hq).2
    simp only [decide_eq_true_eq] at h2
    simpa using h2
  · intro q hq a ha bb hbb
    obtain ⟨hq0, _⟩ := List.mem_filter.mp hq
    obtain ⟨q0, hq0m, rfl⟩ := List.mem_map.mp hq0
    exact h.2.1 q0 hq0m a (List.mem_of_mem_tail ha) bb (List.mem_of_mem_tail hbb)
  · refine List.Pairwise.sublist (List.filter_sublist _) ?_
    refine (List.pairwise_map).mpr ?_
    refine h.2.2.imp ?_
    intro q r hqr a ha bb hbb
    exact hqr a (List.mem_of_mem_tail ha) bb (List.mem_of_mem_tail hbb)

theorem rrStep_heads_pairwise {qs : List (List PC)} (hOK : QueuesOK qs) :
    ((rrStep qs).1).Pairwise (fun a b => a.source_id ≠ b.source_id) := by
  show (qs.filterMap List.head?).Pairwise (fun a b => a.source_id ≠ b.source_id)
  refine List.pairwise_filterMap.mpr ?_
  refine hOK.2.2.imp ?_
  intro q r hqr x hx y hy
  exact hqr x (List.mem_of_mem_head? hx) y (List.mem_of_mem_head? hy)

theorem rrLoop_head {fuel : Nat} {qs : List (List PC)} (hne : ∀ q ∈ qs, q ≠ [])
    {b : PC} (hb : (rrLoop fuel qs).head? = some b) :
    ∃ q1, qs.head? = some q1 ∧ b ∈ q1 := by
  cases fuel with
  | zero => simp [rrLoop] at hb
  | succ n =>
    rw [rrLoop] at hb
    split at hb
    · next hany =>
      cases qs with
      | nil => simp at hany
      | cons q rest =>
        have hqne : q ≠ [] := hne q (List.mem_cons_self q rest)
        cases q with
        | nil => exact absurd rfl hqne
        | cons x t =>
          obtain ⟨h1, _⟩ := rrStep_cons_cons x t rest
          rw [h1] at hb
          simp only [List.cons_append, List.head?] at hb
          exact ⟨x :: t, rfl, by simp [← Option.some_inj.mp hb]⟩
    · simp at hb

theorem rrStep_fst_nil_imp {rest : List (List PC)}
    (hOK : QueuesOK rest) (h : (rrStep rest).1 = []) : rest = [] := by
  cases rest with
  | nil => rfl
  | cons r rs =>
    have hrne : r ≠ [] := hOK.1 r (List.mem_cons_self r rs)
    cases r with
    | nil => exact absurd rfl hrne
    | cons rx rt =>
      rw [(rrStep_cons_cons rx rt rs).1] at h
      exact absurd h (by simp)

theorem rr_seam : ∀ (qs : List (List PC)), QueuesOK qs →
    ∀ a : PC, ((rrStep qs).1).getLast? = some a →
    ∀ q1, ((rrStep qs).2).head? = some q1 →
    ∀ b ∈ q1, a.source_id = b.source_id →
    (rrStep qs).2 = [q1] ∧ ∀ c ∈ q1, c.source_id = a.source_id := by
  intro qs
  induction qs with
  | nil =>
    intro _ a _ q1 hq1
    simp [rrStep] at hq1
  | cons q rest ih =>
    intro hOK a ha q1 hq1 b hb hab
    have hqne : q ≠ [] := hOK.1 q (List.mem_cons_self q rest)
    obtain ⟨x, t, rfl⟩ : ∃ x t, q = x :: t := by
      cases q with
      | nil => exact absurd rfl hqne
      | cons x t => exact ⟨x, t, rfl⟩
    obtain ⟨h1, h2⟩ := rrStep_cons_cons x t rest
    rw [h1] at ha
    rw [h2] at hq1 ⊢
    by_cases hrest : (rrStep rest).1 = []
    · have hrnil : rest = [] := rrStep_fst_nil_imp (QueuesOK_of_cons hOK) hrest
      subst hrnil
      have hax : a = x := by
        rw [hrest] at ha
        simpa using ha.symm
      cases t with
      | nil => simp [rrStep] at hq1
      | cons y u =>
        have hnil2 : (rrStep ([] : List (List PC))).2 = [] := rfl
        rw [hnil2, List.append_nil] at hq1 ⊢
        have hq1t : q1 = y :: u := by
          simp only [List.isEmpty_cons, if_false, Bool.false_eq_true, List.head?] at hq1
          exact (Option.some_inj.mp hq1).symm
        subst hq1t
        refine ⟨by simp, ?_⟩
        intro c hc
        rw [hax]
        exact hOK.2.1 (x :: y :: u) (List.mem_cons_self _ _) c
          (List.mem_cons_of_mem x hc) x (List.mem_cons_self x _)
    · have ha2 : ((rrStep rest).1).getLast? = some a := by
        cases hr : (rrStep rest).1 with
        | nil => exact absurd hr hrest
        | cons z zs =>
          rw [hr, List.getLast?_cons_cons] at ha
          exact ha
      have hamem : ∃ qa ∈ rest, a ∈ qa := by
        have h3 : a ∈ (rrStep rest).1 := List.mem_of_mem_getLast? ha2
        obtain ⟨qa, hqa, hha⟩ := List.mem_filterMap.mp h3
        exact ⟨qa, hqa, List.mem_of_mem_head? hha⟩
      by_cases htz : t.isEmpty = true
      · have hz : (if t.isEmpty = true then ([] : List (List PC)) else [t]) = [] :=
          if_pos htz
        rw [hz, List.nil_append] at hq1 ⊢
        exact ih (QueuesOK_of_cons hOK) a ha2 q1 hq1 b hb hab
      · have hz : (if t.isEmpty = true then ([] : List (List PC)) else [t]) = [t] :=
          if_neg htz
        rw [hz, List.singleton_append] at hq1 ⊢
        have hq1t : q1 = t := by
          simp only [List.head?] at hq1
          exact (Option.some_inj.mp hq1).symm
        subst hq1t
        obtain ⟨qa, hqa, haqa⟩ := hamem
        have hpw := (List.pairwise_cons.mp hOK.2.2).1 qa hqa
        exact absurd hab.symm (hpw b (List.mem_cons_of_mem x hb) a haqa)

theorem allSameSource_cons {src : String} {a : PC} {l : List PC} :
    allSameSource src (a :: l) = (decide (a.source_id = src) && allSameSource src l) := by
  simp [allSameSource]

theorem noAdjDupSource_append (xs ys : List PC)
    (hx : xs.Pairwise (fun a b => a.source_id ≠ b.source_id))
    (hy : noAdjDupSource ys = true)
    (hseam : ∀ a, xs.getLast? = some a → ∀ b, ys.head? = some b →
      a.source_id = b.source_id → allSameSource a.source_id ys = true) :
    noAdjDupSource (xs ++ ys) = true := by
  induction xs with
  | nil => simpa using hy
  | cons a xs2 ih =>
    cases xs2 with
    | nil =>
      cases ys with
      | nil => rfl
      | cons b ys2 =>
        simp only [List.cons_append, List.nil_append]
        rw [noAdjDupSource]
        rw [Bool.and_eq_true]
        refine ⟨?_, hy⟩
        split
        · next heq => exact hseam a rfl b rfl heq
        · rfl
    | cons a2 xs3 =>
      simp only [List.cons_append]
      rw [noAdjDupSource, Bool.and_eq_true]
      constructor
      · have hne : a.source_id ≠ a2.source_id :=
          (List.pairwise_cons.mp hx).1 a2 (List.mem_cons_self a2 xs3)
        rw [if_neg hne]
      · have hx2 : (a2 :: xs3).Pairwise (fun a b => a.source_id ≠ b.source_id) :=
          (List.pairwise_cons.mp hx).2
        have hseam2 : ∀ a3, (a2 :: xs3).getLast? = some a3 → ∀ b, ys.head? = some b →
            a3.source_id = b.source_id → allSameSource a3.source_id ys = true := by
          intro a3 ha3 b hbb heq
          refine hseam a3 ?_ b hbb heq
          rw [List.getLast?_cons_cons]
          exact ha3
        have := ih hx2 hseam2
        simpa using this

theorem rrLoop_adjacency (fuel : Nat) (qs : List (List PC)) (hOK : QueuesOK qs) :
    noAdjDupSource (rrLoop fuel qs) = true := by
  induction fuel generalizing qs with
  | zero => rfl
  | succ n ih =>
    rw [rrLoop]
    split
    · refine noAdjDupSource_append _ _ (rrStep_heads_pairwise hOK)
        (ih _ (QueuesOK_next hOK)) ?_
      intro a ha b hb hab
      have hnext := QueuesOK_next hOK
      obtain ⟨q1, hq1, hbq1⟩ := rrLoop_head hnext.1 hb
      obtain ⟨hsingle, hall⟩ := rr_seam qs hOK a ha q1 hq1 b hbq1 hab
      rw [allSameSource, List.all_eq_true]
      intro c hc
      obtain ⟨q2, hq2, hcq2⟩ := mem_rrLoop hc
      rw [hsingle] at hq2
      have hq2e : q2 = q1 := by simpa using hq2
      subst hq2e
      simp [hall c hcq2]
    · rfl

/-! Lemmas about the display ordering step. -/

theorem groupKey_src_homog (l : List PC) :
    ∀ g ∈ groupKey (fun i => i.source_id) l, ∀ a ∈ g.2, a.source_id = g.1 := by
  intro g hg a ha
  obtain ⟨hfilt, _⟩ := groupKey_snd (fun i : PC => i.source_id) l g hg
  rw [hfilt] at ha
  have := (List.mem_filter.mp ha).2
  simpa using this

theorem groupKey_pairwise_src (l : List PC) :
    ((groupKey (fun i => i.source_id) l).map (fun g => g.2)).Pairwise
      (fun q r => ∀ a ∈ q, ∀ b ∈ r, a.source_id ≠ b.source_id) := by
  refine (List.pairwise_map).mpr ?_
  refine (groupKey_keys (fun i : PC => i.source_id) l).imp_of_mem ?_
  intro g h hg hh hne a ha b hb
  rw [groupKey_src_homog l g hg a ha, groupKey_src_homog l h hh b hb]
  exact hne

theorem orderTier_queuesOK (l : List PC) :
    QueuesOK (sortKey (fun q => -(q.length : Int))
      ((groupKey (fun i => i.source_id) l).map (fun g => g.2))) := by
  have hperm := sortKey_perm (fun q : List PC => -(q.length : Int))
    ((groupKey (fun i => i.source_id) l).map (fun g => g.2))
  refine ⟨?_, ?_, ?_⟩
  · intro q hq
    obtain ⟨g, hg, rfl⟩ := List.mem_map.mp (hperm.mem_iff.mp hq)
    exact groupKey_nonempty _ l g hg
  · intro q hq a ha b hb
    obtain ⟨g, hg, rfl⟩ := List.mem_map.mp (hperm.mem_iff.mp hq)
    rw [groupKey_src_homog l g hg a ha, groupKey_src_homog l g hg b hb]
  · exact (hperm.pairwise_iff
      (fun {q r} h a ha b hb => (h b hb a ha).symm)).mpr (groupKey_pairwise_src l)

theorem orderTier_adjacency (items : List PC) (t : String) :
    noAdjDupSource (orderTier items t) = true :=
  rrLoop_adjacency _ _ (orderTier_queuesOK _)

theorem orderTier_perm (items : List PC) (t : String) :
    List.Perm (orderTier items t) (items.filter (fun i => i.tier = t)) := by
  refine (rrLoop_perm _ _ (le_refl _)).trans ?_
  refine ((sortKey_perm _ _).flatten).trans ?_
  refine (groupKey_flatten_perm _ _).trans ?_
  exact sortKey_perm _ _

theorem tier_of_mem_orderTier {items : List PC} {t : String} {x : PC}
    (h : x ∈ orderTier items t) : x.tier = t := by
  have h2 := (orderTier_perm items t).mem_iff.mp h
  have h3 := (List.mem_filter.mp h2).2
  simpa using h3

theorem orderTier_filter_self (items : List PC) (u : String) :
    (orderTier items u).filter (fun i => i.tier = u) = orderTier items u := by
  refine List.filter_eq_self.mpr ?_
  intro a ha
  simp [tier_of_mem_orderTier ha]

theorem orderTier_filter_other (items : List PC) {u t : String} (h : ¬ u = t) :
    (orderTier items u).filter (fun i => i.tier = t) = [] := by
  refine List.filter_eq_nil_iff.mpr ?_
  intro a ha
  have := tier_of_mem_orderTier ha
  simp [this, h]

theorem display_filter_deep (items : List PC) :
    (order_for_display items).filter (fun i => i.tier = "deep_dive") =
      orderTier items "deep_dive" := by
  unfold order_for_display
  rw [List.filter_append, List.filter_append, orderTier_filter_self,
    orderTier_filter_other items (by decide), orderTier_filter_other items (by decide),
    List.append_nil, List.append_nil]

theorem display_filter_wal (items : List PC) :
    (order_for_display items).filter (fun i => i.tier = "worth_a_look") =
      orderTier items "worth_a_look" := by
  unfold order_for_display
  rw [List.filter_append, List.filter_append, orderTier_filter_self,
    orderTier_filter_other items (by decide), orderTier_filter_other items (by decide),
    List.nil_append, List.append_nil]

theorem display_filter_ss (items : List PC) :
    (order_for_display items).filter (fun i => i.tier = "summary_sufficient") =
      orderTier items "summary_sufficient" := by
  unfold order_for_display
  rw [List.filter_append, List.filter_append, orderTier_filter_self,
    orderTier_filter_other items (by decide), orderTier_filter_other items (by decide),
    List.nil_append, List.nil_append]

theorem display_filter_out (items : List PC) {t : String}
    (h1 : ¬ t = "deep_dive") (h2 : ¬ t = "worth_a_look")
    (h3 : ¬ t = "summary_sufficient") :
    (order_for_display items).filter (fun i => i.tier = t) = [] := by
  unfold order_for_display
  rw [List.filter_append, List.filter_append,
    orderTier_filter_other items (fun hc => h1 hc.symm),
    orderTier_filter_other items (fun hc => h2 hc.symm),
    orderTier_filter_other items (fun hc => h3 hc.symm)]
  rfl

/-! Counting lemmas used by the cap and diversity claims. -/

theorem triple_tier_countP (p : PC → Bool) (l : List PC) :
    l.countP (fun i => p i && decide (i.tier = "deep_dive")) +
    l.countP (fun i => p i && decide (i.tier = "worth_a_look")) +
    l.countP (fun i => p i && decide (i.tier = "summary_sufficient")) ≤
      l.countP p := by
  induction l with
  | nil => simp
  | cons x xs ih =>
    rw [List.countP_cons, List.countP_cons, List.countP_cons, List.countP_cons]
    have hx : (if (p x && decide (x.tier = "deep_dive")) = true then 1 else 0) +
        ((if (p x && decide (x.tier = "worth_a_look")) = true then 1 else 0) +
        (if (p x && decide (x.tier = "summary_sufficient")) = true then 1 else 0)) ≤
        (if p x = true then 1 else 0) := by
      by_cases hp : p x = true
      · by_cases h1 : x.tier = "deep_dive"
        · simp [hp, h1]
        · by_cases h2 : x.tier = "worth_a_look"
          · simp [hp, h1, h2]
          · by_cases h3 : x.tier = "summary_sufficient"
            · simp [hp, h1, h2, h3]
            · simp [hp, h1, h2, h3]
      · rw [Bool.not_eq_true] at hp
        simp [hp]
    omega

theorem filter_take_of_sorted (key : PC → Int) (p : PC → Bool) :
    ∀ (l : List PC) (n : Nat),
    l.Pairwise (fun a b => key a ≤ key b) →
    (∀ x ∈ l, p x = true → key x = 1) →
    (∀ x ∈ l, p x = false → 2 ≤ key x) →
    l.countP p ≤ n →
    (l.take n).filter p = l.filter p := by
  intro l
  induction l with
  | nil => intro n _ _ _ _; simp
  | cons x xs ih =>
    intro n hsort hp1 hp2 hcount
    by_cases hpx : p x = true
    · cases n with
      | zero =>
        rw [List.countP_cons] at hcount
        simp [hpx] at hcount
      | succ m =>
        rw [List.take_succ_cons, List.filter_cons, List.filter_cons, hpx,
          if_pos rfl, if_pos rfl]
        rw [List.countP_cons, if_pos hpx] at hcount
        rw [ih m (List.pairwise_cons.mp hsort).2
          (fun y hy => hp1 y (List.mem_cons_of_mem x hy))
          (fun y hy => hp2 y (List.mem_cons_of_mem x hy)) (by omega)]
    · have hpx2 : p x = false := by
        cases h : p x
        · rfl
        · exact absurd h hpx
      have hkx : 2 ≤ key x := hp2 x (List.mem_cons_self x xs) hpx2
      have hrest : ∀ y ∈ xs, p y = false := by
        intro y hy
        cases h : p y
        · rfl
        · exfalso
          have hky : key y = 1 := hp1 y (List.mem_cons_of_mem x hy) h
          have := (List.pairwise_cons.mp hsort).1 y hy
          omega
      have hnil : xs.filter p = [] := List.filter_eq_nil_iff.mpr (by
        intro a ha
        simp [hrest a ha])
      have hnil2 : (x :: xs).filter p = [] := by
        rw [List.filter_cons, hpx2]
        simpa using hnil
      rw [hnil2]
      refine List.filter_eq_nil_iff.mpr ?_
      intro a ha
      have ham : a ∈ x :: xs := List.mem_of_mem_take ha
      rcases List.mem_cons.mp ham with rfl | ha2
      · simp [hpx2]
      · simp [hrest a ha2]

/-! Lemmas about the deep-dive ceiling step. -/

theorem deep_rest_perm (items : List PC) :
    List.Perm (items.filter (fun i => i.tier = "deep_dive") ++
      items.filter (fun i => ¬ i.tier = "deep_dive")) items := by
  have h := List.filter_append_perm (fun i : PC => i.tier = "deep_dive") items
  refine List.Perm.trans ?_ h
  refine List.Perm.append_left _ ?_
  rw [List.filter_congr]
  intro a _
  simp [decide_not]

theorem demoteWAL_tier (p : PC) : (demoteWAL p).tier = "worth_a_look" := rfl

theorem cap_filter_deep (wc : String → Nat) (items : List PC)
    (h : ¬ (items.filter (fun i => i.tier = "deep_dive")).length ≤ 3) :
    (cap_deep_dives wc items).1.filter (fun i => i.tier = "deep_dive") =
      (sortKey (fun i => -((wc i.content_id : Int)))
        (items.filter (fun i => i.tier = "deep_dive"))).take 3 := by
  simp only [cap_deep_dives, if_neg h]
  rw [List.filter_append, List.filter_append]
  have h1 : ((sortKey (fun i => -((wc i.content_id : Int)))
      (items.filter (fun i => i.tier = "deep_dive"))).take 3).filter
        (fun i => i.tier = "deep_dive") =
      (sortKey (fun i => -((wc i.content_id : Int)))
        (items.filter (fun i => i.tier = "deep_dive"))).take 3 := by
    refine List.filter_eq_self.mpr ?_
    intro a ha
    have ha2 := mem_sortKey.mp (List.mem_of_mem_take ha)
    have := (List.mem_filter.mp ha2).2
    simpa using this
  have h2 : (items.filter (fun i => ¬ i.tier = "deep_dive")).filter
      (fun i => i.tier = "deep_dive") = [] := by
    refine List.filter_eq_nil_iff.mpr ?_
    intro a ha
    have := (List.mem_filter.mp ha).2
    simp only [decide_eq_true_eq] at this ⊢
    exact this
  have h3 : (((sortKey (fun i => -((wc i.content_id : Int)))
      (items.filter (fun i => i.tier = "deep_dive"))).drop 3).map demoteWAL).filter
        (fun i => i.tier = "deep_dive") = [] := by
    refine List.filter_eq_nil_iff.mpr ?_
    intro a ha
    obtain ⟨b, _, rfl⟩ := List.mem_map.mp ha
    simp [demoteWAL_tier]
  rw [h1, h2, h3, List.append_nil, List.append_nil]

theorem cap_countP (wc : String → Nat) (items : List PC) (p : PC → Bool)
    (hp : ∀ x, p (demoteWAL x) = p x) :
    (cap_deep_dives wc items).1.countP p = items.countP p := by
  by_cases h : (items.filter (fun i => i.tier = "deep_dive")).length ≤ 3
  · simp only [cap_deep_dives, if_pos h]
  · simp only [cap_deep_dives, if_neg h]
    rw [List.countP_append, List.countP_append]
    rw [List.countP_map]
    have hcongr : ((sortKey (fun i => -((wc i.content_id : Int)))
        (items.filter (fun i => i.tier = "deep_dive"))).drop 3).countP
          (p ∘ demoteWAL) =
        ((sortKey (fun i => -((wc i.content_id : Int)))
          (items.filter (fun i => i.tier = "deep_dive"))).drop 3).countP p := by
      refine List.countP_congr ?_
      intro a _
      simp [Function.comp, hp a]
    rw [hcongr]
    have htd : ((sortKey (fun i => -((wc i.content_id : Int)))
        (items.filter (fun i => i.tier = "deep_dive"))).take 3).countP p +
        ((sortKey (fun i => -((wc i.content_id : Int)))
          (items.filter (fun i => i.tier = "deep_dive"))).drop 3).countP p =
        (sortKey (fun i => -((wc i.content_id : Int)))
          (items.filter (fun i => i.tier = "deep_dive"))).countP p := by
      rw [← List.countP_append, List.take_append_drop]
    have hsp := (sortKey_perm (fun i : PC => -((wc i.content_id : Int)))
      (items.filter (fun i => i.tier = "deep_dive"))).countP_eq p
    have hdr := (deep_rest_perm items).countP_eq p
    rw [List.countP_append] at hdr
    omega

/-! Lemmas about the source diversity step. -/

theorem mem_keepDiverse : ∀ {l : List PC} {x : PC}, x ∈ keepDiverse l → x ∈ l := by
  intro l x h
  match l with
  | [] => simp [keepDiverse] at h
  | [a] => simpa [keepDiverse] using h
  | [a, b] => simpa [keepDiverse] using h
  | a :: b :: c :: rest =>
    simp only [keepDiverse] at h
    split at h <;> simp only [List.mem_cons] at h ⊢ <;> tauto

theorem keepDiverse_length (l : List PC) : (keepDiverse l).length ≤ 3 := by
  match l with
  | [] => simp [keepDiverse]
  | [a] => simp [keepDiverse]
  | [a, b] => simp [keepDiverse]
  | a :: b :: c :: rest =>
    simp only [keepDiverse]
    split <;> simp

theorem keepDiverse_nondeep (l : List PC) :
    ((keepDiverse l).filter (fun i => ¬ i.tier = "deep_dive")).length ≤ 2 := by
  match l with
  | [] => simp [keepDiverse]
  | [a] =>
    simp only [keepDiverse]
    exact le_trans (List.length_filter_le _ _) (by simp)
  | [a, b] =>
    simp only [keepDiverse]
    exact le_trans (List.length_filter_le _ _) (by simp)
  | a :: b :: c :: rest =>
    simp only [keepDiverse]
    split
    · next hc =>
      rw [show ([a, b, c] : List PC) = [a, b] ++ [c] by rfl, List.filter_append]
      have h2 : ([c] : List PC).filter (fun i => ¬ i.tier = "deep_dive") = [] := by
        simp [hc]
      rw [h2, List.append_nil]
      exact le_trans (List.length_filter_le _ _) (by simp)
    · exact le_trans (List.length_filter_le _ _) (by simp)

theorem keep_sort_filter (g2 : List PC) (k s : String)
    (hsrc : ∀ a ∈ g2, a.source_id = k) :
    (keepDiverse (sortKey (fun i => (i.tier_priority : Int)) g2)).filter
        (fun i => i.source_id = s) =
      if k = s then keepDiverse (sortKey (fun i => (i.tier_priority : Int)) g2)
      else [] := by
  by_cases hk : k = s
  · rw [if_pos hk]
    refine List.filter_eq_self.mpr ?_
    intro a ha
    have := hsrc a (mem_sortKey.mp (mem_keepDiverse ha))
    simp [this, hk]
  · rw [if_neg hk]
    refine List.filter_eq_nil_iff.mpr ?_
    intro a ha
    have := hsrc a (mem_sortKey.mp (mem_keepDiverse ha))
    simp [this, hk]

theorem flatten_keep_filter_src (s : String) :
    ∀ (G : List (String × List PC)),
    G.Pairwise (fun g h => g.1 ≠ h.1) →
    (∀ g ∈ G, ∀ a ∈ g.2, a.source_id = g.1) →
    ((G.map (fun g => keepDiverse
        (sortKey (fun i => (i.tier_priority : Int)) g.2))).flatten).filter
        (fun i => i.source_id = s) =
      (match G.find? (fun g => g.1 = s) with
        | some g => keepDiverse (sortKey (fun i => (i.tier_priority : Int)) g.2)
        | none => []) := by
  intro G
  induction G with
  | nil => intro _ _; simp
  | cons g rest ih =>
    intro hk hsrc
    rw [List.map_cons, List.flatten_cons, List.filter_append]
    rw [keep_sort_filter g.2 g.1 s (hsrc g (List.mem_cons_self g rest))]
    by_cases hg : g.1 = s
    · rw [if_pos hg]
      have hnone : rest.find? (fun g2 => g2.1 = s) = none := by
        rw [List.find?_eq_none]
        intro g2 hg2
        have hne := (List.pairwise_cons.mp hk).1 g2 hg2
        simp only [decide_eq_true_eq]
        intro hc
        exact hne (hg.trans hc.symm)
      have hrest := ih (List.pairwise_cons.mp hk).2
        (fun g2 hg2 => hsrc g2 (List.mem_cons_of_mem g hg2))
      rw [hnone] at hrest
      rw [hrest, List.append_nil]
      have hfind : (g :: rest).find? (fun g2 => g2.1 = s) = some g := by
        rw [List.find?_cons_of_pos]
        simp [hg]
      rw [hfind]
    · rw [if_neg hg, List.nil_append]
      have hfind : (g :: rest).find? (fun g2 => g2.1 = s) =
          rest.find? (fun g2 => g2.1 = s) := by
        rw [List.find?_cons_of_neg]
        simp [hg]
      rw [hfind]
      exact ih (List.pairwise_cons.mp hk).2
        (fun g2 hg2 => hsrc g2 (List.mem_cons_of_mem g hg2))

theorem diversity_filter_src (items : List PC) (s : String) :
    (enforce_source_diversity items).filter (fun i => i.source_id = s) =
      keepDiverse (sortKey (fun i => (i.tier_priority : Int))
        (items.filter (fun i => i.source_id = s))) := by
  unfold enforce_source_diversity
  rw [flatten_keep_filter_src s _
    (groupKey_keys (fun i : PC => i.source_id) items)
    (groupKey_src_homog items)]
  cases hfind : (groupKey (fun i : PC => i.source_id) items).find?
      (fun g => g.1 = s) with
  | some g =>
    have hmem := List.mem_of_find?_eq_some hfind
    have hpred := List.find?_some hfind
    have hgs : g.1 = s := by simpa using hpred
    obtain ⟨hsnd, _⟩ := groupKey_snd (fun i : PC => i.source_id) items g hmem
    show keepDiverse (sortKey (fun i => (i.tier_priority : Int)) g.2) =
      keepDiverse (sortKey (fun i => (i.tier_priority : Int))
        (items.filter (fun i => i.source_id = s)))
    rw [hsnd, hgs]
  | none =>
    have hempty : items.filter (fun i => i.source_id = s) = [] := by
      refine List.filter_eq_nil_iff.mpr ?_
      intro a ha
      simp only [decide_eq_true_eq]
      intro hc
      have hmem : a ∈ ((groupKey (fun i : PC => i.source_id) items).map
          (fun g => g.2)).flatten :=
        (groupKey_flatten_perm (fun i : PC => i.source_id) items).mem_iff.mpr ha
      obtain ⟨q, hq, haq⟩ := List.mem_flatten.mp hmem
      obtain ⟨g, hg, rfl⟩ := List.mem_map.mp hq
      have := groupKey_src_homog items g hg a haq
      have hkey : g.1 = s := by rw [← this, hc]
      rw [List.find?_eq_none] at hfind
      have := hfind g hg
      simp [hkey] at this
    rw [hempty]
    rfl

theorem sorted_take_drop_le (key : PC → Int) (l : List PC) (n : Nat) :
    ∀ x ∈ (sortKey key l).take n, ∀ y ∈ (sortKey key l).drop n, key x ≤ key y := by
  have hs := sortKey_sorted key l
  rw [← List.take_append_drop n (sortKey key l)] at hs
  exact (List.pairwise_append.mp hs).2.2

/-! Pipeline lemmas about composeItems. -/

set_option maxHeartbeats 1000000 in
theorem composeItems_fst (wc : String → Nat) (f b : List PC) :
    (composeItems wc f b).1 = order_for_display
      (if 18 < (cap_deep_dives wc (enforce_source_diversity (f ++ b))).1.length
       then prioritize_and_cap
         (cap_deep_dives wc (enforce_source_diversity (f ++ b))).1 18
       else (cap_deep_dives wc (enforce_source_diversity (f ++ b))).1) := rfl

theorem composeItems_snd (wc : String → Nat) (f b : List PC) :
    (composeItems wc f b).2 =
      (cap_deep_dives wc (enforce_source_diversity (f ++ b))).2 := by
  simp only [composeItems]

theorem out3_length_le (wc : String → Nat) (f b : List PC) :
    (if 18 < (cap_deep_dives wc (enforce_source_diversity (f ++ b))).1.length
     then prioritize_and_cap
       (cap_deep_dives wc (enforce_source_diversity (f ++ b))).1 18
     else (cap_deep_dives wc (enforce_source_diversity (f ++ b))).1).length ≤ 18 := by
  split
  · next h =>
    unfold prioritize_and_cap
    rw [List.length_take, sortKey_length]
    exact min_le_left 18 _
  · next h => omega

theorem display_length_le (items : List PC) :
    (order_for_display items).length ≤ items.length := by
  unfold order_for_display
  rw [List.length_append, List.length_append]
  have h1 := (orderTier_perm items "deep_dive").length_eq
  have h2 := (orderTier_perm items "worth_a_look").length_eq
  have h3 := (orderTier_perm items "summary_sufficient").length_eq
  rw [← List.countP_eq_length_filter] at h1 h2 h3
  have htri := triple_tier_countP (fun _ => true) items
  have e1 : items.countP (fun i => (fun _ : PC => true) i &&
      decide (i.tier = "deep_dive")) =
      items.countP (fun i => decide (i.tier = "deep_dive")) :=
    List.countP_congr (by intro a _; simp)
  have e2 : items.countP (fun i => (fun _ : PC => true) i &&
      decide (i.tier = "worth_a_look")) =
      items.countP (fun i => decide (i.tier = "worth_a_look")) :=
    List.countP_congr (by intro a _; simp)
  have e3 : items.countP (fun i => (fun _ : PC => true) i &&
      decide (i.tier = "summary_sufficient")) =
      items.countP (fun i => decide (i.tier = "summary_sufficient")) :=
    List.countP_congr (by intro a _; simp)
  have etot : items.countP (fun _ => true) = items.length :=
    congrFun List.countP_true items
  rw [e1, e2, e3, etot] at htri
  omega

theorem display_countP_src (items : List PC) (s : String) :
    (order_for_display items).countP (fun i => i.source_id = s) ≤
      items.countP (fun i => i.source_id = s) := by
  unfold order_for_display
  rw [List.countP_append, List.countP_append]
  have hb : ∀ t, (orderTier items t).countP (fun i => decide (i.source_id = s)) =
      items.countP (fun i => decide (i.source_id = s) && decide (i.tier = t)) := by
    intro t
    rw [(orderTier_perm items t).countP_eq, List.countP_filter]
  rw [hb, hb, hb]
  exact triple_tier_countP (fun i => decide (i.source_id = s)) items

theorem tier_priority_deep {x : PC} (h : x.tier = "deep_dive") :
    ((x.tier_priority : Nat) : Int) = 1 := by
  simp [PC.tier_priority, h]

theorem tier_priority_nondeep {x : PC} (h : ¬ x.tier = "deep_dive") :
    2 ≤ ((x.tier_priority : Nat) : Int) := by
  simp only [PC.tier_priority, if_neg h]
  split
  · omega
  · split
    · omega
    · omega

theorem out3_filter_deep_perm (wc : String → Nat) (f b : List PC) :
    List.Perm
      ((if 18 < (cap_deep_dives wc (enforce_source_diversity (f ++ b))).1.length
        then prioritize_and_cap
          (cap_deep_dives wc (enforce_source_diversity (f ++ b))).1 18
        else (cap_deep_dives wc
          (enforce_source_diversity (f ++ b))).1).filter
        (fun i => i.tier = "deep_dive"))
      ((cap_deep_dives wc (enforce_source_diversity (f ++ b))).1.filter
        (fun i => i.tier = "deep_dive")) := by
  set capOut := (cap_deep_dives wc (enforce_source_diversity (f ++ b))).1 with hcap
  split
  · next h =>
    unfold prioritize_and_cap
    have hcount : (sortKey (fun i => (i.tier_priority : Int)) capOut).countP
        (fun i => i.tier = "deep_dive") =
        capOut.countP (fun i => i.tier = "deep_dive") :=
      (sortKey_perm _ capOut).countP_eq _
    have hle : (cap_deep_dives wc (enforce_source_diversity (f ++ b))).1.countP
        (fun i => i.tier = "deep_dive") ≤ 18 := by
      by_cases h3 : ((enforce_source_diversity (f ++ b)).filter
          (fun i => i.tier = "deep_dive")).length ≤ 3
      · have : capOut = enforce_source_diversity (f ++ b) := by
          rw [hcap]
          simp [cap_deep_dives, if_pos h3]
        rw [← hcap, this, List.countP_eq_length_filter]
        omega
      · rw [← hcap]
        rw [List.countP_eq_length_filter, cap_filter_deep wc _ h3]
        have := List.length_take_le 3 (sortKey
          (fun i => -((wc i.content_id : Int)))
          ((enforce_source_diversity (f ++ b)).filter
            (fun i => i.tier = "deep_dive")))
        omega
    have heq := filter_take_of_sorted (fun i => (i.tier_priority : Int))
      (fun i => i.tier = "deep_dive")
      (sortKey (fun i => (i.tier_priority : Int)) capOut) 18
      (sortKey_sorted _ capOut)
      (fun x _ hx => tier_priority_deep (by simpa using hx))
      (fun x _ hx => tier_priority_nondeep (by simpa using hx))
      (by rw [hcount]; exact hle)
    rw [heq]
    exact (sortKey_perm _ capOut).filter _
  · exact List.Perm.refl _

theorem cap_filter_deep_le3 (wc : String → Nat) (items : List PC) :
    ((cap_deep_dives wc items).1.filter (fun i => i.tier = "deep_dive")).length ≤ 3 := by
  by_cases h : (items.filter (fun i => i.tier = "deep_dive")).length ≤ 3
  · simp only [cap_deep_dives, if_pos h]
    exact h
  · rw [cap_filter_deep wc items h]
    exact List.length_take_le 3 _

theorem composeOrdered_filter_deep_perm (s : Store) :
    List.Perm (s.composeOrdered.filter (fun i => i.tier = "deep_dive"))
      ((cap_deep_dives s.wordCount (enforce_source_diversity
        (s.composePools.1 ++ s.composePools.2))).1.filter
          (fun i => i.tier = "deep_dive")) := by
  unfold Store.composeOrdered
  rw [composeItems_fst, display_filter_deep]
  exact (orderTier_perm _ _).trans (out3_filter_deep_perm _ _ _)

/-! Lemmas about the single-writer queue consumer. -/

theorem dbWriteOne_status_other {st : ProcStore} {m : String × Option PC}
    {i : String} (hmi : ¬ m.1 = i)
    (hcid : ∀ p, m.2 = some p → p.content_id = m.1) :
    (dbWriteOne st m).status i = st.status i ∧
    (dbWriteOne st m).processedRows i = st.processedRows i := by
  obtain ⟨m1, m2⟩ := m
  simp only at hmi hcid
  cases m2 with
  | none =>
    constructor
    · show (if i = m1 then "failed" else st.status i) = st.status i
      rw [if_neg (fun hc => hmi hc.symm)]
    · rfl
  | some p =>
    have hcp : p.content_id = m1 := hcid p rfl
    constructor
    · show (if i = m1 then "processed" else st.status i) = st.status i
      rw [if_neg (fun hc => hmi hc.symm)]
    · show (if i = p.content_id then some p else st.processedRows i) =
        st.processedRows i
      rw [if_neg (fun hc => hmi (hcp ▸ hc).symm)]

theorem db_writer_untouched (i : String) :
    ∀ (msgs : List (String × Option PC)) (st : ProcStore),
    (∀ m ∈ msgs, ¬ m.1 = i) →
    (∀ m ∈ msgs, ∀ p, m.2 = some p → p.content_id = m.1) →
    (db_writer st msgs).status i = st.status i ∧
    (db_writer st msgs).processedRows i = st.processedRows i := by
  intro msgs
  induction msgs with
  | nil => intro st _ _; exact ⟨rfl, rfl⟩
  | cons m ms ih =>
    intro st hno hcid
    have hstep := @dbWriteOne_status_other st m i
      (hno m (List.mem_cons_self m ms)) (hcid m (List.mem_cons_self m ms))
    have hrest := ih (dbWriteOne st m)
      (fun m2 hm2 => hno m2 (List.mem_cons_of_mem m hm2))
      (fun m2 hm2 => hcid m2 (List.mem_cons_of_mem m hm2))
    exact ⟨hrest.1.trans hstep.1, hrest.2.trans hstep.2⟩

theorem db_writer_item (i : String) (r : Option PC) :
    ∀ (msgs : List (String × Option PC)) (st : ProcStore),
    msgs.filter (fun m => m.1 = i) = [(i, r)] →
    (∀ m ∈ msgs, ∀ p, m.2 = some p → p.content_id = m.1) →
    (db_writer st msgs).status i =
      (if r.isSome then "processed" else "failed") ∧
    (∀ p, r = some p → (db_writer st msgs).processedRows i = some p) := by
  intro msgs
  induction msgs with
  | nil =>
    intro st hf
    simp at hf
  | cons m ms ih =>
    intro st hf hcid
    by_cases hmi : m.1 = i
    · rw [List.filter_cons_of_pos (by simp [hmi])] at hf
      have hm : m = (i, r) ∧ ms.filter (fun m => m.1 = i) = [] := by
        have h1 := List.head_eq_of_cons_eq hf
        have h2 := List.tail_eq_of_cons_eq hf
        exact ⟨h1, h2⟩
      obtain ⟨rfl, hnil⟩ := hm
      have hno : ∀ m2 ∈ ms, ¬ m2.1 = i := by
        intro m2 hm2 hc
        have : m2 ∈ ms.filter (fun m => m.1 = i) :=
          List.mem_filter.mpr ⟨hm2, by simp [hc]⟩
        rw [hnil] at this
        cases this
      have huntouched := db_writer_untouched i ms (dbWriteOne st (i, r)) hno
        (fun m2 hm2 => hcid m2 (List.mem_cons_of_mem _ hm2))
      show (db_writer (dbWriteOne st (i, r)) ms).status i = _ ∧ _
      cases r with
      | none =>
        refine ⟨?_, by intro p hp; cases hp⟩
        rw [huntouched.1]
        show (if i = i then "failed" else st.status i) = _
        rw [if_pos rfl]
        rfl
      | some p =>
        have hcp : p.content_id = i := hcid (i, some p) (List.mem_cons_self _ _) p rfl
        refine ⟨?_, ?_⟩
        · rw [huntouched.1]
          show (if i = i then "processed" else st.status i) = _
          rw [if_pos rfl]
          rfl
        · intro p2 hp2
          rw [Option.some_inj] at hp2
          subst hp2
          show (db_writer (dbWriteOne st (i, some p)) ms).processedRows i = some p
          rw [huntouched.2]
          show (if i = p.content_id then some p else st.processedRows i) = some p
          rw [if_pos hcp.symm]
    · rw [List.filter_cons_of_neg (by simp [hmi])] at hf
      exact ih (dbWriteOne st m) hf
        (fun m2 hm2 => hcid m2 (List.mem_cons_of_mem m hm2))

theorem filter_fst_eq_of_nodup :
    ∀ (items : List (String × Option PC)),
    (items.map (fun it => it.1)).Nodup →
    ∀ it ∈ items, items.filter (fun m => m.1 = it.1) = [it] := by
  intro items
  induction items with
  | nil => intro _ it hit; cases hit
  | cons a rest ih =>
    intro hnodup it hit
    rw [List.map_cons, List.nodup_cons] at hnodup
    rcases List.mem_cons.mp hit with rfl | hit2
    · rw [List.filter_cons_of_pos (by simp)]
      have hnil : rest.filter (fun m => m.1 = it.1) = [] := by
        refine List.filter_eq_nil_iff.mpr ?_
        intro m hm
        simp only [decide_eq_true_eq]
        intro hc
        exact hnodup.1 (hc ▸ List.mem_map_of_mem (fun it => it.1) hm)
      rw [hnil]
    · have hne : ¬ a.1 = it.1 := by
        intro hc
        exact hnodup.1 (hc ▸ List.mem_map_of_mem (fun it => it.1) hit2)
      rw [List.filter_cons_of_neg (by simp [hne])]
      exact ih hnodup.2 it hit2

/-! Lemmas about persisting the tier writes. -/

theorem tierWrites_fold_inv (id : String) :
    ∀ (ws : List (String × String)) (rows : List PC),
    (∀ w ∈ ws, w.2 = "worth_a_look") →
    (∀ p ∈ rows, p.content_id = id → p.tier = "worth_a_look") →
    ∀ p ∈ ws.foldl (fun r w => update_processed_tier r w.1 w.2) rows,
      p.content_id = id → p.tier = "worth_a_look" := by
  intro ws
  induction ws with
  | nil =>
    intro rows _ hinv p hp hpid
    exact hinv p hp hpid
  | cons w ws2 ih =>
    intro rows hws hinv p hp hpid
    refine ih (update_processed_tier rows w.1 w.2)
      (fun w2 hw2 => hws w2 (List.mem_cons_of_mem w hw2)) ?_ p hp hpid
    intro p2 hp2 hp2id
    obtain ⟨p0, hp0, rfl⟩ := List.mem_map.mp hp2
    by_cases hc : p0.content_id = w.1
    · simp only [if_pos hc]
      exact hws w (List.mem_cons_self w ws2)
    · simp only [if_neg hc] at hp2id ⊢
      exact hinv p0 hp0 hp2id

theorem tierWrites_fold_demotes (id : String) :
    ∀ (ws : List (String × String)) (rows : List PC),
    (∀ w ∈ ws, w.2 = "worth_a_look") →
    (id, "worth_a_look") ∈ ws →
    ∀ p ∈ ws.foldl (fun r w => update_processed_tier r w.1 w.2) rows,
      p.content_id = id → p.tier = "worth_a_look" := by
  intro ws
  induction ws with
  | nil => intro rows _ hid; cases hid
  | cons w ws2 ih =>
    intro rows hws hid p hp hpid
    by_cases hw : (id, "worth_a_look") ∈ ws2
    · exact ih (update_processed_tier rows w.1 w.2)
        (fun w2 hw2 => hws w2 (List.mem_cons_of_mem w hw2)) hw p hp hpid
    · have hweq : w = (id, "worth_a_look") := by
        rcases List.mem_cons.mp hid with h | h
        · exact h.symm
        · exact absurd h hw
      subst hweq
      refine tierWrites_fold_inv id ws2 _
        (fun w2 hw2 => hws w2 (List.mem_cons_of_mem _ hw2)) ?_ p hp hpid
      intro p2 hp2 hp2id
      obtain ⟨p0, hp0, rfl⟩ := List.mem_map.mp hp2
      by_cases hc : p0.content_id = id
      · simp only [if_pos hc]
      · simp only [if_neg hc] at hp2id
        exact absurd hp2id hc

/-! Lemmas about the sentence boundary search of the truncation. -/

theorem le_getLast_of_sorted :
    ∀ (l : List Nat), l.Pairwise (fun a b => a < b) →
    ∀ a, l.getLast? = some a → ∀ x ∈ l, x ≤ a := by
  intro l
  induction l with
  | nil => intro _ a ha; simp at ha
  | cons y ys ih =>
    intro hp a ha x hx
    cases ys with
    | nil =>
      have hay : a = y := by simpa using ha.symm
      have hxy : x = y := by simpa using hx
      rw [hay, hxy]
    | cons z zs =>
      rw [List.getLast?_cons_cons] at ha
      have hmem : a ∈ z :: zs := List.mem_of_mem_getLast? ha
      rcases List.mem_cons.mp hx with rfl | hx2
      · exact le_of_lt ((List.pairwise_cons.mp hp).1 a hmem)
      · exact ih (List.pairwise_cons.mp hp).2 a ha x hx2

theorem boundaryAt_iff (s : List Char) (i : Nat) :
    boundaryAt s i = true ↔ s[i]? = some '.' ∧ s[i + 1]? = some ' ' := by
  have hdrop : s.drop (i + 1) = (s.drop i).tail := by
    rw [List.tail_drop]
  unfold boundaryAt
  constructor
  · intro h
    split at h
    · next c rest heq =>
      refine ⟨?_, ?_⟩
      · rw [← List.head?_drop, heq]
        rfl
      · rw [← List.head?_drop, hdrop, heq]
        rfl
    · exact absurd h (by simp)
  · rintro ⟨h1, h2⟩
    rw [← List.head?_drop] at h1
    rw [← List.head?_drop, hdrop] at h2
    cases hd : s.drop i with
    | nil => rw [hd] at h1; simp at h1
    | cons c1 r1 =>
      rw [hd] at h1 h2
      have hc1 : c1 = '.' := by simpa using h1
      cases r1 with
      | nil => simp at h2
      | cons c2 r2 =>
        have hc2 : c2 = ' ' := by simpa using h2
        rw [hc1, hc2]
        rfl

theorem boundaryAt_ge_length {s : List Char} {j : Nat} (h : s.length ≤ j) :
    boundaryAt s j = false := by
  unfold boundaryAt
  rw [List.drop_eq_nil_of_le h]

theorem boundary_len {s : List Char} {i : Nat} (h : boundaryAt s i = true) :
    i + 2 ≤ s.length := by
  have h2 := ((boundaryAt_iff s i).mp h).2
  by_contra hc
  rw [List.getElem?_eq_none (by omega)] at h2
  cases h2

theorem boundary_of_take {s : List Char} {m i : Nat}
    (h : boundaryAt (s.take m) i = true) : boundaryAt s i = true := by
  obtain ⟨h1, h2⟩ := (boundaryAt_iff _ i).mp h
  have hlen := boundary_len h
  rw [List.length_take] at hlen
  have hi2 : i + 1 < m := by omega
  rw [List.getElem?_take, if_pos (by omega)] at h1
  rw [List.getElem?_take, if_pos (by omega)] at h2
  exact (boundaryAt_iff s i).mpr ⟨h1, h2⟩

theorem rfindDotSpace_spec (s : List Char) {i : Nat}
    (h : rfindDotSpace s = (i : Int)) :
    boundaryAt s i = true ∧ i < s.length ∧
    ∀ j, boundaryAt s j = true → j ≤ i := by
  unfold rfindDotSpace at h
  cases hl : ((List.range s.length).filter (fun k => boundaryAt s k)).getLast? with
  | none =>
    rw [hl] at h
    have h2 : (-1 : Int) = (i : Int) := h
    omega
  | some k =>
    rw [hl] at h
    have h2 : ((k : Nat) : Int) = (i : Int) := h
    have hki : k = i := by exact_mod_cast h2
    subst hki
    have hkmem := List.mem_of_mem_getLast? hl
    obtain ⟨hrange, hbound⟩ := List.mem_filter.mp hkmem
    refine ⟨hbound, List.mem_range.mp hrange, ?_⟩
    intro j hj
    by_cases hjl : j < s.length
    · have hjmem : j ∈ (List.range s.length).filter (fun k => boundaryAt s k) :=
        List.mem_filter.mpr ⟨List.mem_range.mpr hjl, hj⟩
      have hsorted : ((List.range s.length).filter
          (fun k => boundaryAt s k)).Pairwise (fun a b => a < b) :=
        List.Pairwise.sublist (List.filter_sublist _) (List.pairwise_lt_range _)
      exact le_getLast_of_sorted _ hsorted k hl j hjmem
    · rw [boundaryAt_ge_length (by omega)] at hj
      cases hj

theorem getLast_take_eq {s : List Char} {i : Nat} (h : i < s.length) :
    (s.take (i + 1)).getLast? = s[i]? := by
  rw [List.getLast?_eq_getElem?, List.length_take]
  have hmin : min (i + 1) s.length = i + 1 := by omega
  rw [hmin]
  simp only [Nat.add_sub_cancel]
  rw [List.getElem?_take, if_pos (by omega)]

/-! Lemmas about the half-to-even rounding of percent_complete. -/

theorem rat_den_ne (q : ℚ) : ((q.den : ℚ)) ≠ 0 := by
  have := q.den_pos
  exact_mod_cast Nat.pos_iff_ne_zero.mp this

theorem rat_num_eq (q : ℚ) : ((q.num : ℚ)) = q * q.den :=
  (div_eq_iff (rat_den_ne q)).mp (Rat.num_div_den q)

theorem divInt_ten (q : ℚ) : Rat.divInt (10 * q.num) ((q.den : Nat) : ℤ) = 10 * q := by
  rw [Rat.divInt_eq_div]
  push_cast
  field_simp
  rw [rat_num_eq q]
  ring

theorem ratFloor_eq_floor (x : ℚ) : x.floor = ⌊x⌋ := by
  rw [Rat.floor_def', Rat.floor_def]

theorem roundTenHE_bound (q : ℚ) :
    |((roundTenHE q : ℤ) : ℚ) - 10 * q| ≤ 1 / 2 := by
  have hd0 : (0 : ℚ) < (q.den : ℚ) := by exact_mod_cast q.den_pos
  unfold roundTenHE
  simp only [divInt_ten q, ratFloor_eq_floor]
  set x : ℚ := 10 * q with hx
  set f : ℤ := ⌊x⌋ with hf
  set R : ℤ := 10 * q.num - f * ((q.den : Nat) : ℤ) with hR
  have hfr0 : 0 ≤ x - (f : ℚ) := sub_nonneg.mpr (Int.floor_le x)
  have hfr1 : x - (f : ℚ) < 1 := by
    have := Int.lt_floor_add_one x
    have hfc : ((f : ℤ) : ℚ) = ((⌊x⌋ : ℤ) : ℚ) := by rw [hf]
    linarith [this]
  have hrq : ((R : ℤ) : ℚ) = (q.den : ℚ) * (x - f) := by
    rw [hR]
    push_cast
    rw [rat_num_eq q, hx]
    ring
  have hc1 : 2 * R < ((q.den : Nat) : ℤ) ↔ x - (f : ℚ) < 1 / 2 := by
    constructor
    · intro h
      have h2 : ((2 * R : ℤ) : ℚ) < (((q.den : Nat) : ℤ) : ℚ) := by exact_mod_cast h
      push_cast at h2
      rw [show ((R : ℤ) : ℚ) = (q.den : ℚ) * (x - f) from hrq] at h2
      nlinarith
    · intro h
      have h2 : ((2 * R : ℤ) : ℚ) < (((q.den : Nat) : ℤ) : ℚ) := by
        push_cast
        rw [show ((R : ℤ) : ℚ) = (q.den : ℚ) * (x - f) from hrq]
        nlinarith
      exact_mod_cast h2
  have hc2 : ((q.den : Nat) : ℤ) < 2 * R ↔ 1 / 2 < x - (f : ℚ) := by
    constructor
    · intro h
      have h2 : (((q.den : Nat) : ℤ) : ℚ) < ((2 * R : ℤ) : ℚ) := by exact_mod_cast h
      push_cast at h2
      rw [show ((R : ℤ) : ℚ) = (q.den : ℚ) * (x - f) from hrq] at h2
      nlinarith
    · intro h
      have h2 : (((q.den : Nat) : ℤ) : ℚ) < ((2 * R : ℤ) : ℚ) := by
        push_cast
        rw [show ((R : ℤ) : ℚ) = (q.den : ℚ) * (x - f) from hrq]
        nlinarith
      exact_mod_cast h2
  split_ifs with h1 h2 h3
  · have ht := hc1.mp h1
    rw [abs_le]
    constructor <;> linarith
  · have ht := hc2.mp h2
    rw [abs_le]
    constructor <;> push_cast <;> linarith
  · have heq : x - (f : ℚ) = 1 / 2 := by
      have ha := hc1.not.mp h1
      have hb := hc2.not.mp h2
      push_neg at ha hb
      linarith
    rw [abs_le]
    constructor <;> linarith
  · have heq : x - (f : ℚ) = 1 / 2 := by
      have ha := hc1.not.mp h1
      have hb := hc2.not.mp h2
      push_neg at ha hb
      linarith
    rw [abs_le]
    constructor <;> push_cast <;> linarith

theorem round1_bound (q : ℚ) : |round1 q - q| ≤ 1 / 20 := by
  unfold round1
  rw [Rat.divInt_eq_div]
  have h := roundTenHE_bound q
  push_cast
  rw [show ((roundTenHE q : ℤ) : ℚ) / 10 - q =
    (((roundTenHE q : ℤ) : ℚ) - 10 * q) / 10 by ring]
  rw [abs_div]
  rw [show |(10 : ℚ)| = 10 by norm_num]
  linarith

theorem round1_mul_ten (q : ℚ) : round1 q * 10 = ((roundTenHE q : ℤ) : ℚ) := by
  unfold round1
  rw [Rat.divInt_eq_div]
  field_simp

/-! Unfolding of compose on a date without a saved briefing. -/

set_option maxHeartbeats 1000000 in
theorem compose_fresh (mkId : String → String) (now : Nat) (s : Store)
    (d : String) (hnew : s.get_briefing d = none) :
    compose mkId now s d =
      ({ id := mkId d
         briefing_date := d
         created_at := now
         fresh_count := (s.composeOrdered.filter (fun i => ¬ i.is_backlog)).length
         backlog_count := (s.composeOrdered.filter (fun i => i.is_backlog)).length
         total_count := s.composeOrdered.length
         item_ids := s.composeOrdered.map (fun i => i.content_id)
         email_sent := false },
       s.applyTierWrites s.composeWrites) := by
  unfold compose
  rw [hnew]

/-- C2: compose is idempotent per date: when a briefing is already saved for
the target date, compose returns that saved briefing unchanged and performs
no recomputation and no store write — the returned store is the input
store untouched. -/
theorem compose_idempotent_existing (mkId : String → String) (now : Nat)
    (s : Store) (d : String) (b : DailyBriefing)
    (h : s.get_briefing d = some b) :
    compose mkId now s d = (b, s) := by
  unfold compose
  rw [h]

theorem compose_idempotent_existing_witness :
    w2Store.get_briefing "2026-02-02" = some w2Briefing ∧
    compose (fun x => x) 0 w2Store "2026-02-02" = (w2Briefing, w2Store) :=
  ⟨rfl, compose_idempotent_existing (fun x => x) 0 w2Store "2026-02-02"
    w2Briefing rfl⟩

set_option maxHeartbeats 1000000 in
/-- C3: a briefing newly composed by compose from pools whose items all
carry one of the three valid tiers has total_count at most 18, and
total_count equals fresh_count plus backlog_count, where fresh_count counts
the selected items with is_backlog false and backlog_count those with
is_backlog true. -/
theorem compose_total_cap (mkId : String → String) (now : Nat) (s : Store)
    (d : String) (hnew : s.get_briefing d = none) :
    (compose mkId now s d).1.total_count ≤ 18 ∧
    (compose mkId now s d).1.total_count =
      (compose mkId now s d).1.fresh_count +
        (compose mkId now s d).1.backlog_count ∧
    (compose mkId now s d).1.fresh_count =
      (s.composeOrdered.filter (fun i => ¬ i.is_backlog)).length ∧
    (compose mkId now s d).1.backlog_count =
      (s.composeOrdered.filter (fun i => i.is_backlog)).length := by
  simp only [compose_fresh mkId now s d hnew]
  refine ⟨?_, ?_, trivial, trivial⟩
  · show s.composeOrdered.length ≤ 18
    unfold Store.composeOrdered
    rw [composeItems_fst]
    exact le_trans (display_length_le _) (out3_length_le _ _ _)
  · show s.composeOrdered.length = _ + _
    have h0 := List.length_eq_countP_add_countP
      (fun i : PC => i.is_backlog) s.composeOrdered
    rw [List.countP_eq_length_filter, List.countP_eq_length_filter] at h0
    have h1 : (s.composeOrdered.filter
        (fun a => decide ¬ (fun i : PC => i.is_backlog) a = true)).length =
        (s.composeOrdered.filter (fun i => ¬ i.is_backlog)).length := by
      congr 1
    rw [h1] at h0
    omega

theorem compose_total_cap_witness :
    (compose (fun x => x) 0 cexStore6 "2026-01-01").1.total_count ≤ 18 ∧
    (compose (fun x => x) 0 cexStore6 "2026-01-01").1.total_count =
      (compose (fun x => x) 0 cexStore6 "2026-01-01").1.fresh_count +
        (compose (fun x => x) 0 cexStore6 "2026-01-01").1.backlog_count :=
  ⟨(compose_total_cap (fun x => x) 0 cexStore6 "2026-01-01" rfl).1,
   (compose_total_cap (fun x => x) 0 cexStore6 "2026-01-01" rfl).2.1⟩

set_option maxHeartbeats 1000000 in
/-- C4: deep-dive ceiling: a newly composed briefing carries at most 3
deep_dive items; when more than 3 diversity-surviving candidates are
deep_dive, the selected deep_dive items are exactly the 3 of highest word
count (stable sort on word count descending), every kept one has word count
at least every demoted one, the demotions issued are exactly one
worth_a_look tier write per dropped candidate, and in the returned store
every processed row named by such a write has tier worth_a_look. -/
theorem compose_deep_dive_ceiling (mkId : String → String) (now : Nat)
    (s : Store) (d : String) (hnew : s.get_briefing d = none) :
    (compose mkId now s d).1.item_ids =
      s.composeOrdered.map (fun i => i.content_id) ∧
    (s.composeOrdered.filter (fun i => i.tier = "deep_dive")).length ≤ 3 ∧
    (3 < ((enforce_source_diversity
        (s.composePools.1 ++ s.composePools.2)).filter
          (fun i => i.tier = "deep_dive")).length →
      List.Perm (s.composeOrdered.filter (fun i => i.tier = "deep_dive"))
        (s.deepCands.take 3) ∧
      (∀ x ∈ s.deepCands.take 3, ∀ y ∈ s.deepCands.drop 3,
        s.wordCount y.content_id ≤ s.wordCount x.content_id) ∧
      s.composeWrites =
        (s.deepCands.drop 3).map (fun i => (i.content_id, "worth_a_look")) ∧
      ∀ p ∈ (compose mkId now s d).2.processed,
        (p.content_id, "worth_a_look") ∈ s.composeWrites →
          p.tier = "worth_a_look") := by
  have hids : (compose mkId now s d).1.item_ids =
      s.composeOrdered.map (fun i => i.content_id) := by
    simp only [compose_fresh mkId now s d hnew]
  refine ⟨hids, ?_, ?_⟩
  · have hlen := (composeOrdered_filter_deep_perm s).length_eq
    rw [hlen]
    exact cap_filter_deep_le3 _ _
  · intro h3
    have hn : ¬ ((enforce_source_diversity
        (s.composePools.1 ++ s.composePools.2)).filter
          (fun i => i.tier = "deep_dive")).length ≤ 3 := by omega
    have hwrites : s.composeWrites =
        (s.deepCands.drop 3).map (fun i => (i.content_id, "worth_a_look")) := by
      unfold Store.composeWrites
      rw [composeItems_snd]
      simp only [cap_deep_dives, if_neg hn, Store.deepCands]
    refine ⟨?_, ?_, hwrites, ?_⟩
    · have hperm := composeOrdered_filter_deep_perm s
      rw [cap_filter_deep _ _ hn] at hperm
      exact hperm
    · intro x hx y hy
      have hkey := sorted_take_drop_le
        (fun i => -((s.wordCount i.content_id : Int)))
        ((enforce_source_diversity
          (s.composePools.1 ++ s.composePools.2)).filter
            (fun i => i.tier = "deep_dive")) 3 x hx y hy
      simp only at hkey
      omega
    · intro p hp hw
      have hstore : (compose mkId now s d).2 =
          s.applyTierWrites s.composeWrites := by
        simp only [compose_fresh mkId now s d hnew]
      rw [hstore] at hp
      have hws : ∀ w ∈ s.composeWrites, w.2 = "worth_a_look" := by
        intro w hwmem
        rw [hwrites] at hwmem
        obtain ⟨i, _, rfl⟩ := List.mem_map.mp hwmem
        rfl
      exact tierWrites_fold_demotes p.content_id s.composeWrites
        s.processed hws hw p hp rfl

theorem compose_deep_dive_ceiling_witness :
    (cexStore5.composeOrdered.filter (fun i => i.tier = "deep_dive")).length ≤ 3 ∧
    cexStore5.composeWrites =
      (cexStore5.deepCands.drop 3).map (fun i => (i.content_id, "worth_a_look")) :=
  ⟨(compose_deep_dive_ceiling (fun x => x) 0 cexStore5 "2026-01-01" rfl).2.1,
   ((compose_deep_dive_ceiling (fun x => x) 0 cexStore5 "2026-01-01" rfl).2.2
     (by decide)).2.2.1⟩

/-- C5 counterexample: with six deep_dive candidates — three of distinct
sources and three of one source S that the diversity step admitted as
deep_dive instances — the later deep-dive ceiling demotes all three S items
to worth_a_look, so the finished briefing carries source S three times with
its third instance not deep_dive: the claimed end-state diversity property
is false. -/
theorem source_diversity_cex :
    cexStore5.get_briefing "2026-01-01" = none ∧
    (compose (fun x => x) 0 cexStore5 "2026-01-01").1.item_ids =
      cexStore5.composeOrdered.map (fun i => i.content_id) ∧
    sourceDiversityOK cexStore5.composeOrdered = false := by decide

set_option maxHeartbeats 1000000 in
/-- C5 amended: in every briefing newly composed by compose, each source
contributes at most 3 items; the beyond-the-second-instance deep_dive
guarantee holds at the diversity step (at most 2 items per source are not
deep_dive there), but the deep-dive ceiling runs afterwards and may demote
a source's admitted third instance, so the final briefing guarantees only
the per-source cap of 3. -/
theorem compose_source_diversity (mkId : String → String) (now : Nat)
    (s : Store) (d : String) (hnew : s.get_briefing d = none) :
    (compose mkId now s d).1.item_ids =
      s.composeOrdered.map (fun i => i.content_id) ∧
    (∀ src, (s.composeOrdered.filter (fun i => i.source_id = src)).length ≤ 3) ∧
    (∀ src, (((enforce_source_diversity
        (s.composePools.1 ++ s.composePools.2)).filter
          (fun i => i.source_id = src)).filter
            (fun i => ¬ i.tier = "deep_dive")).length ≤ 2) := by
  refine ⟨by simp only [compose_fresh mkId now s d hnew], ?_, ?_⟩
  · intro src
    rw [← List.countP_eq_length_filter]
    unfold Store.composeOrdered
    rw [composeItems_fst]
    refine le_trans (display_countP_src _ src) ?_
    have hcap : (cap_deep_dives s.wordCount (enforce_source_diversity
        (s.composePools.1 ++ s.composePools.2))).1.countP
          (fun i => i.source_id = src) =
        (enforce_source_diversity
          (s.composePools.1 ++ s.composePools.2)).countP
            (fun i => i.source_id = src) := by
      refine cap_countP _ _ _ ?_
      intro x
      rfl
    have hdiv : (enforce_source_diversity
        (s.composePools.1 ++ s.composePools.2)).countP
          (fun i => i.source_id = src) ≤ 3 := by
      rw [List.countP_eq_length_filter, diversity_filter_src]
      exact keepDiverse_length _
    split
    · next h =>
      refine le_trans ?_ (le_trans (le_of_eq hcap) hdiv)
      unfold prioritize_and_cap
      refine le_trans (List.Sublist.countP_le _ (List.take_sublist _ _)) ?_
      exact le_of_eq ((sortKey_perm _ _).countP_eq _)
    · next h => exact le_trans (le_of_eq hcap) hdiv
  · intro src
    rw [diversity_filter_src]
    exact keepDiverse_nondeep _

theorem compose_source_diversity_witness :
    (cexStore6.composeOrdered.filter (fun i => i.source_id = "A")).length ≤ 3 ∧
    (((enforce_source_diversity
        (cexStore6.composePools.1 ++ cexStore6.composePools.2)).filter
          (fun i => i.source_id = "A")).filter
            (fun i => ¬ i.tier = "deep_dive")).length ≤ 2 :=
  ⟨(compose_source_diversity (fun x => x) 0 cexStore6 "2026-01-01" rfl).2.1 "A",
   (compose_source_diversity (fun x => x) 0 cexStore6 "2026-01-01" rfl).2.2 "A"⟩

/-- C6 counterexample: in a newly composed briefing a deep_dive item of
source A is immediately followed by the worth_a_look item of the same
source while an item of source B remains after them, so the claimed
adjacency property over the whole final order is false: it ignores the
seams between the tier blocks of the display ordering. -/
theorem display_adjacency_cex :
    cexStore6.get_briefing "2026-01-01" = none ∧
    (compose (fun x => x) 0 cexStore6 "2026-01-01").1.item_ids =
      cexStore6.composeOrdered.map (fun i => i.content_id) ∧
    noAdjDupSource cexStore6.composeOrdered = false := by decide

/-- C6 amended: within each single-tier block of the final order of a newly
composed briefing, no two adjacent items share a source unless every
remaining item of that block carries that same source; adjacent items
across a tier-block seam may share a source. -/
theorem compose_display_adjacency (mkId : String → String) (now : Nat)
    (s : Store) (d : String) (hnew : s.get_briefing d = none) :
    (compose mkId now s d).1.item_ids =
      s.composeOrdered.map (fun i => i.content_id) ∧
    ∀ t, noAdjDupSource (s.composeOrdered.filter (fun i => i.tier = t)) = true := by
  refine ⟨by simp only [compose_fresh mkId now s d hnew], ?_⟩
  intro t
  unfold Store.composeOrdered
  rw [composeItems_fst]
  by_cases h1 : t = "deep_dive"
  · subst h1
    rw [display_filter_deep]
    exact orderTier_adjacency _ _
  · by_cases h2 : t = "worth_a_look"
    · subst h2
      rw [display_filter_wal]
      exact orderTier_adjacency _ _
    · by_cases h3 : t = "summary_sufficient"
      · subst h3
        rw [display_filter_ss]
        exact orderTier_adjacency _ _
      · rw [display_filter_out _ h1 h2 h3]
        rfl

theorem compose_display_adjacency_witness :
    noAdjDupSource (cexStore5.composeOrdered.filter
      (fun i => i.tier = "worth_a_look")) = true :=
  (compose_display_adjacency (fun x => x) 0 cexStore5 "2026-01-01" rfl).2
    "worth_a_look"

/-! Guard characterisations for the calibration chain. -/

theorem calibGuard0 (c : CalibInput) : calibGuard c 0 = true ↔
    (DEEP_DIVE_LONG_FORM ≤ c.word_count ∧ c.llm_tier ≠ "deep_dive") := by
  simp [calibGuard]

theorem calibGuard1 (c : CalibInput) : calibGuard c 1 = true ↔
    (DEEP_DIVE_MIN_WORDS ≤ c.word_count ∧ c.source_id ∈ DEEP_SOURCES ∧
      c.llm_tier ≠ "deep_dive") := by
  simp [calibGuard, and_assoc]

theorem calibGuard2 (c : CalibInput) : calibGuard c 2 = true ↔
    (DEEP_DIVE_MIN_WORDS ≤ c.word_count ∧ c.content_category = "interview" ∧
      c.llm_tier ≠ "deep_dive") := by
  simp [calibGuard, and_assoc]

theorem calibGuard3 (c : CalibInput) : calibGuard c 3 = true ↔
    (DEEP_DIVE_MIN_WORDS ≤ c.word_count ∧
      DEEP_DIVE_MIN_INSIGHTS ≤ c.key_insights.length ∧
      c.llm_tier ≠ "deep_dive") := by
  simp [calibGuard, and_assoc]

theorem calibGuard4 (c : CalibInput) : calibGuard c 4 = true ↔
    (c.word_count ≤ SUMMARY_SUFFICIENT_MAX_WORDS ∧
      c.llm_tier ≠ "summary_sufficient") := by
  simp [calibGuard]

theorem calibGuard5 (c : CalibInput) : calibGuard c 5 = true ↔
    (c.freshness = "stale" ∧ c.llm_tier = "deep_dive") := by
  simp [calibGuard]

/-- C7: tier calibration is the ordered first-match rule chain as a pure
function of word count, source id, LLM tier, content category, insight list
and freshness: whenever a rule index is reported the rule's guard holds,
every earlier guard fails, and the returned tier is that rule's result;
when no rule is reported every guard fails and the LLM tier is kept
unchanged; and an item with word_count 20000, source dwarkesh-patel and LLM
tier worth_a_look calibrates to deep_dive through the long-form rule 0. -/
theorem tier_calibration_chain :
    (∀ c : CalibInput, ∀ k, (calibrate_tier c).2 = some k →
      calibGuard c k = true ∧ (∀ j, j < k → calibGuard c j = false) ∧
      (calibrate_tier c).1 = calibResult c k) ∧
    (∀ c : CalibInput, (calibrate_tier c).2 = none →
      (∀ j, calibGuard c j = false) ∧ (calibrate_tier c).1 = c.llm_tier) ∧
    calibrate_tier ⟨20000, "dwarkesh-patel", "worth_a_look", "", [], "fresh"⟩ =
      ("deep_dive", some 0) := by
  have g0f : ∀ c : CalibInput,
      ¬ (DEEP_DIVE_LONG_FORM ≤ c.word_count ∧ c.llm_tier ≠ "deep_dive") →
      calibGuard c 0 = false := by
    intro c h
    rw [Bool.eq_false_iff]
    intro hg
    exact h ((calibGuard0 c).mp hg)
  have g1f : ∀ c : CalibInput,
      ¬ (DEEP_DIVE_MIN_WORDS ≤ c.word_count ∧ c.source_id ∈ DEEP_SOURCES ∧
        c.llm_tier ≠ "deep_dive") →
      calibGuard c 1 = false := by
    intro c h
    rw [Bool.eq_false_iff]
    intro hg
    exact h ((calibGuard1 c).mp hg)
  have g2f : ∀ c : CalibInput,
      ¬ (DEEP_DIVE_MIN_WORDS ≤ c.word_count ∧ c.content_category = "interview" ∧
        c.llm_tier ≠ "deep_dive") →
      calibGuard c 2 = false := by
    intro c h
    rw [Bool.eq_false_iff]
    intro hg
    exact h ((calibGuard2 c).mp hg)
  have g3f : ∀ c : CalibInput,
      ¬ (DEEP_DIVE_MIN_WORDS ≤ c.word_count ∧
        DEEP_DIVE_MIN_INSIGHTS ≤ c.key_insights.length ∧
        c.llm_tier ≠ "deep_dive") →
      calibGuard c 3 = false := by
    intro c h
    rw [Bool.eq_false_iff]
    intro hg
    exact h ((calibGuard3 c).mp hg)
  have g4f : ∀ c : CalibInput,
      ¬ (c.word_count ≤ SUMMARY_SUFFICIENT_MAX_WORDS ∧
        c.llm_tier ≠ "summary_sufficient") →
      calibGuard c 4 = false := by
    intro c h
    rw [Bool.eq_false_iff]
    intro hg
    exact h ((calibGuard4 c).mp hg)
  have g5f : ∀ c : CalibInput,
      ¬ (c.freshness = "stale" ∧ c.llm_tier = "deep_dive") →
      calibGuard c 5 = false := by
    intro c h
    rw [Bool.eq_false_iff]
    intro hg
    exact h ((calibGuard5 c).mp hg)
  refine ⟨?_, ?_, by decide⟩
  · intro c k hk
    by_cases h1 : DEEP_DIVE_LONG_FORM ≤ c.word_count ∧ c.llm_tier ≠ "deep_dive"
    · have hc : calibrate_tier c = ("deep_dive", some 0) := by
        unfold calibrate_tier
        rw [if_pos h1]
      rw [hc] at hk ⊢
      have hkk := Option.some.inj hk
      subst hkk
      exact ⟨(calibGuard0 c).mpr h1, fun j hj => absurd hj (by omega), rfl⟩
    · by_cases h2 : DEEP_DIVE_MIN_WORDS ≤ c.word_count ∧
          c.source_id ∈ DEEP_SOURCES ∧ c.llm_tier ≠ "deep_dive"
      · have hc : calibrate_tier c = ("deep_dive", some 1) := by
          unfold calibrate_tier
          rw [if_neg h1, if_pos h2]
        rw [hc] at hk ⊢
        have hkk := Option.some.inj hk
        subst hkk
        refine ⟨(calibGuard1 c).mpr h2, ?_, rfl⟩
        intro j hj
        interval_cases j
        exact g0f c h1
      · by_cases h3 : DEEP_DIVE_MIN_WORDS ≤ c.word_count ∧
            c.content_category = "interview" ∧ c.llm_tier ≠ "deep_dive"
        · have hc : calibrate_tier c = ("deep_dive", some 2) := by
            unfold calibrate_tier
            rw [if_neg h1, if_neg h2, if_pos h3]
          rw [hc] at hk ⊢
          have hkk := Option.some.inj hk
          subst hkk
          refine ⟨(calibGuard2 c).mpr h3, ?_, rfl⟩
          intro j hj
          interval_cases j
          · exact g0f c h1
          · exact g1f c h2
        · by_cases h4 : DEEP_DIVE_MIN_WORDS ≤ c.word_count ∧
              DEEP_DIVE_MIN_INSIGHTS ≤ c.key_insights.length ∧
              c.llm_tier ≠ "deep_dive"
          · have hc : calibrate_tier c = ("deep_dive", some 3) := by
              unfold calibrate_tier
              rw [if_neg h1, if_neg h2, if_neg h3, if_pos h4]
            rw [hc] at hk ⊢
            have hkk := Option.some.inj hk
            subst hkk
            refine ⟨(calibGuard3 c).mpr h4, ?_, rfl⟩
            intro j hj
            interval_cases j
            · exact g0f c h1
            · exact g1f c h2
            · exact g2f c h3
          · by_cases h5 : c.word_count ≤ SUMMARY_SUFFICIENT_MAX_WORDS ∧
                c.llm_tier ≠ "summary_sufficient"
            · have hc : calibrate_tier c = ("summary_sufficient", some 4) := by
                unfold calibrate_tier
                rw [if_neg h1, if_neg h2, if_neg h3, if_neg h4, if_pos h5]
              rw [hc] at hk ⊢
              have hkk := Option.some.inj hk
              subst hkk
              refine ⟨(calibGuard4 c).mpr h5, ?_, rfl⟩
              intro j hj
              interval_cases j
              · exact g0f c h1
              · exact g1f c h2
              · exact g2f c h3
              · exact g3f c h4
            · by_cases h6 : c.freshness = "stale" ∧ c.llm_tier = "deep_dive"
              · have hc : calibrate_tier c = ("worth_a_look", some 5) := by
                  unfold calibrate_tier
                  rw [if_neg h1, if_neg h2, if_neg h3, if_neg h4, if_neg h5,
                    if_pos h6]
                rw [hc] at hk ⊢
                have hkk := Option.some.inj hk
                subst hkk
                refine ⟨(calibGuard5 c).mpr h6, ?_, rfl⟩
                intro j hj
                interval_cases j
                · exact g0f c h1
                · exact g1f c h2
                · exact g2f c h3
                · exact g3f c h4
                · exact g4f c h5
              · have hc : calibrate_tier c = (c.llm_tier, none) := by
                  unfold calibrate_tier
                  rw [if_neg h1, if_neg h2, if_neg h3, if_neg h4, if_neg h5,
                    if_neg h6]
                rw [hc] at hk
                exact Option.noConfusion hk
  · intro c hk
    by_cases h1 : DEEP_DIVE_LONG_FORM ≤ c.word_count ∧ c.llm_tier ≠ "deep_dive"
    · have hc : calibrate_tier c = ("deep_dive", some 0) := by
        unfold calibrate_tier
        rw [if_pos h1]
      rw [hc] at hk
      exact Option.noConfusion hk
    · by_cases h2 : DEEP_DIVE_MIN_WORDS ≤ c.word_count ∧
          c.source_id ∈ DEEP_SOURCES ∧ c.llm_tier ≠ "deep_dive"
      · have hc : calibrate_tier c = ("deep_dive", some 1) := by
          unfold calibrate_tier
          rw [if_neg h1, if_pos h2]
        rw [hc] at hk
        exact Option.noConfusion hk
      · by_cases h3 : DEEP_DIVE_MIN_WORDS ≤ c.word_count ∧
            c.content_category = "interview" ∧ c.llm_tier ≠ "deep_dive"
        · have hc : calibrate_tier c = ("deep_dive", some 2) := by
            unfold calibrate_tier
            rw [if_neg h1, if_neg h2, if_pos h3]
          rw [hc] at hk
          exact Option.noConfusion hk
        · by_cases h4 : DEEP_DIVE_MIN_WORDS ≤ c.word_count ∧
              DEEP_DIVE_MIN_INSIGHTS ≤ c.key_insights.length ∧
              c.llm_tier ≠ "deep_dive"
          · have hc : calibrate_tier c = ("deep_dive", some 3) := by
              unfold calibrate_tier
              rw [if_neg h1, if_neg h2, if_neg h3, if_pos h4]
            rw [hc] at hk
            exact Option.noConfusion hk
          · by_cases h5 : c.word_count ≤ SUMMARY_SUFFICIENT_MAX_WORDS ∧
                c.llm_tier ≠ "summary_sufficient"
            · have hc : calibrate_tier c = ("summary_sufficient", some 4) := by
                unfold calibrate_tier
                rw [if_neg h1, if_neg h2, if_neg h3, if_neg h4, if_pos h5]
              rw [hc] at hk
              exact Option.noConfusion hk
            · by_cases h6 : c.freshness = "stale" ∧ c.llm_tier = "deep_dive"
              · have hc : calibrate_tier c = ("worth_a_look", some 5) := by
                  unfold calibrate_tier
                  rw [if_neg h1, if_neg h2, if_neg h3, if_neg h4, if_neg h5,
                    if_pos h6]
                rw [hc] at hk
                exact Option.noConfusion hk
              · have hc : calibrate_tier c = (c.llm_tier, none) := by
                  unfold calibrate_tier
                  rw [if_neg h1, if_neg h2, if_neg h3, if_neg h4, if_neg h5,
                    if_neg h6]
                refine ⟨?_, by rw [hc]⟩
                intro j
                match j with
                | 0 => exact g0f c h1
                | 1 => exact g1f c h2
                | 2 => exact g2f c h3
                | 3 => exact g3f c h4
                | 4 => exact g4f c h5
                | 5 => exact g5f c h6
                | n + 6 => rfl

theorem tier_calibration_chain_witness :
    calibGuard ⟨20000, "dwarkesh-patel", "worth_a_look", "", [], "fresh"⟩ 0 =
      true ∧
    (calibrate_tier
      ⟨20000, "dwarkesh-patel", "worth_a_look", "", [], "fresh"⟩).1 =
      calibResult ⟨20000, "dwarkesh-patel", "worth_a_look", "", [], "fresh"⟩ 0 :=
  ⟨(tier_calibration_chain.1
      ⟨20000, "dwarkesh-patel", "worth_a_look", "", [], "fresh"⟩ 0 rfl).1,
   (tier_calibration_chain.1
      ⟨20000, "dwarkesh-patel", "worth_a_look", "", [], "fresh"⟩ 0 rfl).2.2⟩

/-- C8: save_and_deliver marks every processed row named by the briefing's
item_ids delivered and, when backlog_count is positive, advances the stored
backlog progress delivered counter by exactly backlog_count; concretely,
from progress (100 total, 0 delivered), delivering a briefing with
backlog_count 4 yields progress (100, 4) and percent_complete 4. -/
theorem delivery_marks_and_progress (s : Store) (b : DailyBriefing) :
    (∀ p ∈ (save_and_deliver s b).processed,
      p.content_id ∈ b.item_ids → p.delivered = true) ∧
    (0 < b.backlog_count → ∀ t dc, s.progress = some ⟨t, dc⟩ →
      (save_and_deliver s b).progress = some ⟨t, dc + b.backlog_count⟩) ∧
    (s.progress = some ⟨100, 0⟩ → b.backlog_count = 4 →
      (save_and_deliver s b).progress = some ⟨100, 4⟩ ∧
      BacklogProgress.percent_complete ⟨100, 4⟩ = 4) := by
  have hproc : (save_and_deliver s b).processed =
      mark_delivered s.processed b.item_ids := by
    unfold save_and_deliver
    split
    · rfl
    · rfl
  have hprog : ∀ t dc, s.progress = some ⟨t, dc⟩ → 0 < b.backlog_count →
      (save_and_deliver s b).progress = some ⟨t, dc + b.backlog_count⟩ := by
    intro t dc hpr hb
    simp only [save_and_deliver, Store.update_backlog_progress]
    rw [if_pos hb]
    rw [hpr]
    rfl
  refine ⟨?_, fun hb t dc hpr => hprog t dc hpr hb, ?_⟩
  · intro p hp hin
    rw [hproc] at hp
    obtain ⟨p0, hp0, rfl⟩ := List.mem_map.mp hp
    by_cases hc : p0.content_id ∈ b.item_ids
    · rw [if_pos hc]
    · rw [if_neg hc] at hin
      exact absurd hin hc
  · intro hp hbc
    refine ⟨?_, by decide⟩
    have h1 := hprog 100 0 hp (by omega)
    rw [hbc] at h1
    simpa using h1

theorem delivery_marks_and_progress_witness :
    (save_and_deliver w8Store w8Briefing).progress = some ⟨100, 4⟩ ∧
    BacklogProgress.percent_complete ⟨100, 4⟩ = 4 :=
  (delivery_marks_and_progress w8Store w8Briefing).2.2 rfl rfl

/-- C10: BacklogProgress.percent_complete is total and never divides by
zero: with total_items 0 it returns 100, and with positive total_items it
returns the delivered share of 100 rounded to one decimal place — the
result is the one-decimal rounding of the exact percentage (within 1/20 of
it, and ten times it is an integer). -/
theorem percent_complete_total (bp : BacklogProgress) :
    (bp.total_items = 0 → bp.percent_complete = 100) ∧
    (0 < bp.total_items →
      bp.percent_complete =
        round1 (Rat.divInt (bp.delivered_items * 100) bp.total_items) ∧
      |bp.percent_complete -
        Rat.divInt (bp.delivered_items * 100) bp.total_items| ≤ 1 / 20 ∧
      (bp.percent_complete * 10).den = 1) := by
  constructor
  · intro h
    unfold BacklogProgress.percent_complete
    rw [if_pos h]
  · intro h
    have hne : ¬ bp.total_items = 0 := by omega
    unfold BacklogProgress.percent_complete
    rw [if_neg hne]
    refine ⟨rfl, round1_bound _, ?_⟩
    rw [round1_mul_ten]
    exact Rat.den_intCast _

theorem percent_complete_total_witness :
    BacklogProgress.percent_complete ⟨0, 7⟩ = 100 ∧
    BacklogProgress.percent_complete ⟨3, 1⟩ =
      round1 (Rat.divInt ((⟨3, 1⟩ : BacklogProgress).delivered_items * 100)
        (⟨3, 1⟩ : BacklogProgress).total_items) :=
  ⟨(percent_complete_total ⟨0, 7⟩).1 rfl,
   ((percent_complete_total ⟨3, 1⟩).2 (by decide)).1⟩

theorem rfindDotSpace_cases (s : List Char) :
    rfindDotSpace s = -1 ∨ ∃ i : Nat, rfindDotSpace s = (i : Int) := by
  unfold rfindDotSpace
  cases hl : ((List.range s.length).filter (fun k => boundaryAt s k)).getLast? with
  | none => exact Or.inl rfl
  | some k => exact Or.inr ⟨k, rfl⟩

theorem truncate_eq (text : List Char) (mt : Nat)
    (h : ¬ estimate_tokens text ≤ mt) :
    truncate_for_context text mt =
      (if 4 * ((mt * 4 : Nat) : Int) < 5 * rfindDotSpace (text.take (mt * 4))
       then (text.take (mt * 4)).take
         ((rfindDotSpace (text.take (mt * 4))).toNat + 1)
       else text.take (mt * 4)) ++ TRUNC_MARKER := by
  unfold truncate_for_context
  rw [if_neg h]

theorem truncateAsync_eq (text : List Char) (mt : Nat) :
    truncateAsync text mt =
      (if 4 * ((mt * 4 : Nat) : Int) < 5 * rfindDotSpace (text.take (mt * 4))
       then (text.take (mt * 4)).take
         ((rfindDotSpace (text.take (mt * 4))).toNat + 1)
       else text.take (mt * 4)) ++ TRUNC_MARKER := rfl

/-- C9 counterexample: a transcript of 8 characters with token budget 1
(character budget 4) exceeds the limit but has no sentence boundary at all,
so truncate_for_context cuts it mid-sentence: the claim that the cut is
never mid-sentence is false (the code falls back to a hard cut at the
budget whenever no boundary lies strictly beyond 80 percent of it). -/
theorem truncation_cex :
    1 < estimate_tokens cexText9 ∧
    truncate_for_context cexText9 1 = "abcd".toList ++ TRUNC_MARKER ∧
    ¬ endsAtSentenceBoundary cexText9 1 := by
  refine ⟨by decide, by decide, ?_⟩
  intro h
  unfold endsAtSentenceBoundary at h
  exact absurd h (by decide)

/-- C9 amended: for every transcript over the estimated token budget, both
truncate_for_context and the identical async variant return a prefix of the
text followed by the truncation marker; the prefix never exceeds the
character budget max_tokens times 4. When the budget prefix contains a
sentence boundary strictly beyond 80 percent of the budget (strict
comparison, modelled exactly over the integers), the cut ends with the
period of the last such boundary; otherwise the cut is exactly at the
budget and may fall mid-sentence. -/
theorem truncation_amended (text : List Char) (mt : Nat)
    (h : mt < estimate_tokens text) :
    ∃ body : List Char,
      truncate_for_context text mt = body ++ TRUNC_MARKER ∧
      truncateAsync text mt = body ++ TRUNC_MARKER ∧
      body = text.take body.length ∧
      body.length ≤ mt * 4 ∧
      (4 * ((mt * 4 : Nat) : Int) < 5 * rfindDotSpace (text.take (mt * 4)) →
        body.getLast? = some ('.' : Char) ∧
        4 * ((mt * 4 : Nat) : Int) < 5 * (body.length : Int) ∧
        ∀ j : Nat, boundaryAt (text.take (mt * 4)) j = true →
          j + 1 ≤ body.length) ∧
      (¬ 4 * ((mt * 4 : Nat) : Int) < 5 * rfindDotSpace (text.take (mt * 4)) →
        body.length = mt * 4) := by
  have hne : ¬ estimate_tokens text ≤ mt := by omega
  have hlen : mt * 4 ≤ text.length := by
    unfold estimate_tokens at h
    omega
  by_cases hcond : 4 * ((mt * 4 : Nat) : Int) <
      5 * rfindDotSpace (text.take (mt * 4))
  · rcases rfindDotSpace_cases (text.take (mt * 4)) with hneg | ⟨i, hi⟩
    · rw [hneg] at hcond
      have hge : (0 : Int) ≤ 4 * ((mt * 4 : Nat) : Int) := by positivity
      omega
    · obtain ⟨hbound, hilt, hmax⟩ := rfindDotSpace_spec _ hi
      have hi2 := boundary_len hbound
      rw [List.length_take] at hi2
      have himc : i + 1 ≤ mt * 4 := by omega
      have hitxt : i < text.length := by omega
      have htn : (rfindDotSpace (text.take (mt * 4))).toNat = i := by
        rw [hi]
        exact Int.toNat_natCast i
      have hteq : (text.take (mt * 4)).take (i + 1) = text.take (i + 1) := by
        rw [List.take_take]
        congr 1
        omega
      have hblen : (text.take (i + 1)).length = i + 1 := by
        rw [List.length_take]
        omega
      refine ⟨text.take (i + 1), ?_, ?_, ?_, ?_, ?_, ?_⟩
      · rw [truncate_eq text mt hne, if_pos hcond, htn, hteq]
      · rw [truncateAsync_eq text mt, if_pos hcond, htn, hteq]
      · rw [hblen]
      · rw [hblen]
        exact himc
      · intro _
        refine ⟨?_, ?_, ?_⟩
        · rw [getLast_take_eq hitxt]
          exact ((boundaryAt_iff text i).mp (boundary_of_take hbound)).1
        · rw [hblen, hi] at *
          push_cast
          omega
        · intro j hj
          have := hmax j hj
          rw [hblen]
          omega
      · intro hcc
        exact absurd hcond hcc
  · have hblen : (text.take (mt * 4)).length = mt * 4 := by
      rw [List.length_take]
      omega
    refine ⟨text.take (mt * 4), ?_, ?_, ?_, ?_, ?_, ?_⟩
    · rw [truncate_eq text mt hne, if_neg hcond]
    · rw [truncateAsync_eq text mt, if_neg hcond]
    · rw [hblen]
    · rw [hblen]
    · intro hcc
      exact absurd hcc hcond
    · intro _
      exact hblen

theorem truncation_amended_witness :
    3 < estimate_tokens wText9 ∧
    ∃ body : List Char,
      truncate_for_context wText9 3 = body ++ TRUNC_MARKER ∧
      truncateAsync wText9 3 = body ++ TRUNC_MARKER ∧
      body = wText9.take body.length ∧
      body.length ≤ 3 * 4 ∧
      (4 * ((3 * 4 : Nat) : Int) < 5 * rfindDotSpace (wText9.take (3 * 4)) →
        body.getLast? = some ('.' : Char) ∧
        4 * ((3 * 4 : Nat) : Int) < 5 * (body.length : Int) ∧
        ∀ j : Nat, boundaryAt (wText9.take (3 * 4)) j = true →
          j + 1 ≤ body.length) ∧
      (¬ 4 * ((3 * 4 : Nat) : Int) < 5 * rfindDotSpace (wText9.take (3 * 4)) →
        body.length = 3 * 4) :=
  ⟨by decide, truncation_amended wText9 3 (by decide)⟩

/-- C1: single-writer result routing: each dispatched worker contributes
exactly one message (its item id with the parsed result on success or none
on failure), only the single consumer db_writer applies store writes, and
for every arrival order of the queue — any permutation of the
one-message-per-item batch, ids distinct — the drained store holds exactly
the successes marked processed, each with its ProcessedContent row saved,
and exactly the failures marked failed: no write lost or duplicated
regardless of interleaving. -/
theorem single_writer_routing (items msgs : List (String × Option PC))
    (st0 : ProcStore)
    (hperm : List.Perm msgs (items.map (fun it => process_one it.1 it.2)))
    (hnodup : (items.map (fun it => it.1)).Nodup)
    (hcid : ∀ it ∈ items, ∀ p, it.2 = some p → p.content_id = it.1) :
    countStatus (db_writer st0 msgs) (items.map (fun it => it.1)) "processed" =
      (items.filter (fun it => it.2.isSome)).length ∧
    countStatus (db_writer st0 msgs) (items.map (fun it => it.1)) "failed" =
      (items.filter (fun it => ¬ it.2.isSome)).length ∧
    ∀ it ∈ items, ∀ p, it.2 = some p →
      (db_writer st0 msgs).processedRows it.1 = some p := by
  have hmap : items.map (fun it => process_one it.1 it.2) = items := by
    simp [process_one]
  rw [hmap] at hperm
  have hmcid : ∀ m ∈ msgs, ∀ p, m.2 = some p → p.content_id = m.1 := by
    intro m hm
    exact hcid m (hperm.mem_iff.mp hm)
  have hitem : ∀ it ∈ items,
      (db_writer st0 msgs).status it.1 =
        (if it.2.isSome then "processed" else "failed") ∧
      (∀ p, it.2 = some p →
        (db_writer st0 msgs).processedRows it.1 = some p) := by
    intro it hit
    have hfi := filter_fst_eq_of_nodup items hnodup it hit
    have hpf := hperm.filter (fun m => m.1 = it.1)
    rw [hfi] at hpf
    have hfm := List.perm_singleton.mp hpf
    exact db_writer_item it.1 it.2 msgs st0 hfm hmcid
  refine ⟨?_, ?_, fun it hit => (hitem it hit).2⟩
  · unfold countStatus
    rw [List.filter_map, List.length_map]
    have heq : items.filter
        ((fun i => decide ((db_writer st0 msgs).status i = "processed")) ∘
          (fun it => it.1)) =
        items.filter (fun it => it.2.isSome) := by
      apply List.filter_congr
      intro it hit
      have hst := (hitem it hit).1
      cases hs : it.2 with
      | none =>
        rw [hs] at hst
        simp only [Option.isSome_none] at hst
        simp only [Function.comp_apply, hst, hs, Option.isSome_none]
        decide
      | some p =>
        rw [hs] at hst
        simp only [Option.isSome_some] at hst
        simp only [Function.comp_apply, hst, hs, Option.isSome_some]
        decide
    rw [heq]
  · unfold countStatus
    rw [List.filter_map, List.length_map]
    have heq : items.filter
        ((fun i => decide ((db_writer st0 msgs).status i = "failed")) ∘
          (fun it => it.1)) =
        items.filter (fun it => ¬ it.2.isSome) := by
      apply List.filter_congr
      intro it hit
      have hst := (hitem it hit).1
      cases hs : it.2 with
      | none =>
        rw [hs] at hst
        simp only [Option.isSome_none] at hst
        simp only [Function.comp_apply, hst, hs, Option.isSome_none]
        decide
      | some p =>
        rw [hs] at hst
        simp only [Option.isSome_some] at hst
        simp only [Function.comp_apply, hst, hs, Option.isSome_some]
        decide
    rw [heq]

theorem single_writer_routing_witness :
    countStatus (db_writer ⟨fun _ => "pending", fun _ => none⟩
        [("b", none), ("a", some wPC1)])
      ([("a", some wPC1), ("b", none)].map (fun it => it.1)) "processed" =
      ([("a", some wPC1), ("b", none)].filter (fun it => it.2.isSome)).length ∧
    countStatus (db_writer ⟨fun _ => "pending", fun _ => none⟩
        [("b", none), ("a", some wPC1)])
      ([("a", some wPC1), ("b", none)].map (fun it => it.1)) "failed" =
      ([("a", some wPC1), ("b", none)].filter
        (fun it => ¬ it.2.isSome)).length := by
  have hcid : ∀ it ∈ [("a", some wPC1), ("b", (none : Option PC))],
      ∀ p, it.2 = some p → p.content_id = it.1 := by
    intro it hit p hp
    rcases List.mem_cons.mp hit with rfl | hit2
    · rw [← Option.some.inj hp]
      rfl
    · rcases List.mem_cons.mp hit2 with rfl | hit3
      · exact Option.noConfusion hp
      · cases hit3
  have h := single_writer_routing [("a", some wPC1), ("b", none)]
    [("b", none), ("a", some wPC1)] ⟨fun _ => "pending", fun _ => none⟩
    (by decide) (by decide) hcid
  exact ⟨h.1, h.2.1⟩
